import Mathlib

/-!
# Boundary-tag pool allocator (`myalloc.c`)

A shallow embedding of `init_myalloc`, `myalloc` and `myfree`.

* Addresses are byte offsets from `mem` (an `Int`; the pool is `[0, MEMORY_SIZE)`).
  Memory is a total map from addresses to bytes, so that the words the source
  reads just outside the pool (`myfree` on the first or last block) have some
  value, as they do on the machine.
* An `int` is 32 bits, two's complement, stored little-endian in four bytes; tags
  may sit at any byte offset.  Arithmetic carried out in `int` is reduced with
  `wrap32` where the source compares (`size + 8`) or stores (`writeInt`) the result.
  Pointer arithmetic is not reduced.  `abs` is the absolute value: the two differ
  only at `INT_MIN`, where C leaves `abs` undefined.
* `NULL` is `none`; a pointer into the pool is `some offset`.
* The `while` loop of `myalloc` runs on fuel `MEMORY_SIZE`; it always leaves
  through its guard (`walkEnd_ge`, `scanLoop_fuel`), so the fuel is never what
  stops it.
-/

namespace MyAlloc

/-- One byte of memory. -/
abbrev Byte := Fin 256

/-- Memory, addressed by byte offset from `mem`. -/
abbrev Mem := Int → Byte

/-- Largest value of a C `int`. -/
def INT_MAX : Int := 2147483647

/-- Reduction of an integer to the 32-bit two's complement range. -/
def wrap32 (v : Int) : Int := (v + 2147483648) % 4294967296 - 2147483648

/-- Byte number `k` (0 = least significant) of the 32-bit representation of `v`. -/
def byteOf (v : Int) (k : Nat) : Byte :=
  Fin.ofNat (((v % 4294967296) / (256 ^ k)).toNat)

/-- The read `*(int *)(mem + a)`. -/
def readInt (m : Mem) (a : Int) : Int :=
  wrap32 (((m a).val : Int) + 256 * ((m (a + 1)).val : Int)
    + 65536 * ((m (a + 2)).val : Int) + 16777216 * ((m (a + 3)).val : Int))

/-- The store `*(int *)(mem + a) = v`. -/
def writeInt (m : Mem) (a : Int) (v : Int) : Mem := fun i =>
  if i = a then byteOf v 0
  else if i = a + 1 then byteOf v 1
  else if i = a + 2 then byteOf v 2
  else if i = a + 3 then byteOf v 3
  else m i

/-- The two globals of the allocator: `MEMORY_SIZE` and the contents of the
address space around `mem`.  The statics `freeptr` and `locPtr` are scratch:
every function assigns them before reading them. -/
structure Alloc where
  MEMORY_SIZE : Int
  mem : Mem

/-- `init_myalloc`, given the buffer `malloc` returned (`buf`, arbitrary
contents).  When `malloc` fails the source aborts and there is no later state. -/
def init_myalloc (MEMORY_SIZE : Int) (buf : Mem) : Alloc :=
  let freeptr : Int := 0
  let m1 := writeInt buf freeptr (MEMORY_SIZE - 2 * 4)
  let freeptr := freeptr + MEMORY_SIZE - 4
  let m2 := writeInt m1 freeptr (MEMORY_SIZE - 2 * 4)
  { MEMORY_SIZE := MEMORY_SIZE, mem := m2 }

/-- One iteration of the body of the `while` loop of `myalloc`: the new
`locPtr` after looking at the block at `freeptr`. -/
def scanStep (m : Mem) (size : Int) (freeptr : Int) (locPtr : Option Int) : Option Int :=
  match locPtr with
  | none =>
    if readInt m freeptr ≥ wrap32 (size + 8) then some freeptr else none
  | some l =>
    if readInt m freeptr ≥ wrap32 (size + 8) then
      if readInt m freeptr ≤ readInt m l then some freeptr else some l
    else some l

/-- The `while ((freeptr - mem) < MEMORY_SIZE)` loop of `myalloc`; the result
is the final `locPtr`.  Every iteration moves `freeptr` forward by at least 8,
so the guard fails within `MEMORY_SIZE` iterations (`scanLoop_fuel`). -/
def scanLoop (m : Mem) (M size : Int) : Nat → Int → Option Int → Option Int
  | 0, _, locPtr => locPtr
  | n + 1, freeptr, locPtr =>
    if freeptr < M then
      scanLoop m M size n (freeptr + |readInt m freeptr| + 8)
        (scanStep m size freeptr locPtr)
    else locPtr

/-- The value of `locPtr` when the `while` loop of `myalloc(size)` exits: the
header offset of the block the allocation is carved from, or `none` (`NULL`). -/
def chosen (s : Alloc) (size : Int) : Option Int :=
  scanLoop s.mem s.MEMORY_SIZE size s.MEMORY_SIZE.toNat 0 none

/-- `myalloc(size)`: the new state and the returned pointer. -/
def myalloc (s : Alloc) (size : Int) : Alloc × Option Int :=
  match chosen s size with
  | none => (s, none)
  | some locPtr =>
    let m1 := writeInt s.mem (locPtr + size + 8) (readInt s.mem locPtr - size - 8)
    let m2 := writeInt m1 locPtr (size * -1)
    let locPtr := locPtr + size + 4
    let m3 := writeInt m2 locPtr (size * -1)
    let locPtr := locPtr + 4
    let m4 := writeInt m3 (readInt m3 locPtr + locPtr + 4) (readInt m3 locPtr)
    let locPtr := locPtr - 4
    let locPtr := locPtr + readInt m4 locPtr
    ({ s with mem := m4 }, some locPtr)

/-- `myfree(oldptr)`. -/
def myfree (s : Alloc) (oldptr : Int) : Alloc :=
  let M := s.MEMORY_SIZE
  let m1 := writeInt s.mem (oldptr - 4) |readInt s.mem (oldptr - 4)|
  let m2 := writeInt m1 (oldptr + readInt m1 (oldptr - 4)) (readInt m1 (oldptr - 4))
  let m3 :=
    if readInt m2 (oldptr + |readInt m2 (oldptr - 4)| + 4) ≥ 0
        ∧ oldptr + |readInt m2 (oldptr - 4)| + 4 ≠ M then
      let a := writeInt m2 (oldptr - 4)
        (readInt m2 (oldptr - 4) + readInt m2 (oldptr + |readInt m2 (oldptr - 4)| + 4))
      let b := writeInt a (oldptr - 4) (readInt a (oldptr - 4) + 8)
      writeInt b (oldptr + readInt b (oldptr - 4)) (readInt b (oldptr - 4))
    else m2
  let m4 :=
    if readInt m3 (oldptr - 8) ≥ 0 ∧ oldptr - 8 > 0 then
      let a := writeInt m3 (oldptr - readInt m3 (oldptr - 8) - 12)
        (readInt m3 (oldptr - readInt m3 (oldptr - 8) - 12) + (readInt m3 (oldptr - 4) + 8))
      writeInt a (oldptr + readInt a (oldptr - 4))
        (readInt a (oldptr - readInt a (oldptr - 8) - 12))
    else m3
  { s with mem := m4 }

/-- The forward walk over the pool: the offset and header of every block met
when starting at `pos` and advancing by `abs(header) + 8`. -/
def walk (m : Mem) (M : Int) : Nat → Int → List (Int × Int)
  | 0, _ => []
  | n + 1, pos =>
    if pos < M then (pos, readInt m pos) :: walk m M n (pos + |readInt m pos| + 8)
    else []

/-- The cursor at which the forward walk stops. -/
def walkEnd (m : Mem) (M : Int) : Nat → Int → Int
  | 0, pos => pos
  | n + 1, pos =>
    if pos < M then walkEnd m M n (pos + |readInt m pos| + 8) else pos

/-- The blocks of the pool, as the forward walk from offset 0 finds them. -/
def blocks (s : Alloc) : List (Int × Int) :=
  walk s.mem s.MEMORY_SIZE s.MEMORY_SIZE.toNat 0

/-- The cursor of the forward walk from offset 0 when it stops. -/
def cursor (s : Alloc) : Int :=
  walkEnd s.mem s.MEMORY_SIZE s.MEMORY_SIZE.toNat 0

/-- The blocks of `l` lie back to back from offset `a` to offset `b`: each
starts where the footprint `abs(header) + 8` of the one before it ends. -/
def Linked : Int → List (Int × Int) → Int → Prop
  | a, [], b => a = b
  | a, x :: rest, b => x.1 = a ∧ Linked (a + |x.2| + 8) rest b

/-- I1: the forward walk stops exactly at `MEMORY_SIZE`, so the footprints
`abs(header) + 8` of the blocks add up to the pool. -/
def Tiled (s : Alloc) : Prop := cursor s = s.MEMORY_SIZE

/-- I2: every block of the forward walk has its footer equal to its header. -/
def TagsAgree (s : Alloc) : Prop :=
  ∀ b ∈ blocks s, readInt s.mem (b.1 + 4 + |b.2|) = b.2

/-- Whether some two consecutive blocks of a list both have a non-negative
(free) header. -/
def adjacentFree : List (Int × Int) → Bool
  | x :: y :: rest => (decide (0 ≤ x.2) && decide (0 ≤ y.2)) || adjacentFree (y :: rest)
  | _ => false

/-- I3: no two consecutive blocks both have a non-negative (free) header. -/
def NoAdjacentFree (s : Alloc) : Prop := adjacentFree (blocks s) = false

/-- A well-formed pool: `MEMORY_SIZE` is an `int`, and I1, I2 and I3 hold. -/
def WellFormed (s : Alloc) : Prop :=
  s.MEMORY_SIZE ≤ INT_MAX ∧ Tiled s ∧ TagsAgree s ∧ NoAdjacentFree s

instance (s : Alloc) : Decidable (Tiled s) :=
  inferInstanceAs (Decidable (cursor s = s.MEMORY_SIZE))

instance (s : Alloc) : Decidable (TagsAgree s) :=
  inferInstanceAs (Decidable (∀ b ∈ blocks s, readInt s.mem (b.1 + 4 + |b.2|) = b.2))

instance (s : Alloc) : Decidable (NoAdjacentFree s) :=
  inferInstanceAs (Decidable (adjacentFree (blocks s) = false))

instance (s : Alloc) : Decidable (WellFormed s) :=
  inferInstanceAs (Decidable
    (s.MEMORY_SIZE ≤ INT_MAX ∧ Tiled s ∧ TagsAgree s ∧ NoAdjacentFree s))

/-- A call made by the client of the allocator. -/
inductive Op where
  | alloc (size : Int)
  | free (oldptr : Int)

/-- The allocator together with the client's record of its live allocations:
the addresses `myalloc` returned and that were not yet passed to `myfree`, each
with the size that was requested. -/
structure Sys where
  st : Alloc
  live : List (Int × Int)

/-- One client call.  `myalloc(size)` is called with an `int` `size >= 0`;
`myfree` is called only on a live address (anything else is `none`: the call is
outside the contract of the allocator). -/
def Sys.step (σ : Sys) : Op → Option Sys
  | .alloc size =>
    if 0 ≤ size ∧ size ≤ INT_MAX then
      match myalloc σ.st size with
      | (st, none) => some { st := st, live := σ.live }
      | (st, some p) => some { st := st, live := (p, size) :: σ.live }
    else none
  | .free oldptr =>
    match σ.live.find? (fun e => e.1 = oldptr) with
    | some e => some { st := myfree σ.st oldptr, live := σ.live.erase e }
    | none => none

/-- The state after `init_myalloc` on a pool of `MEMORY_SIZE` bytes (initial
contents `buf`) followed by the calls `ops`. -/
def run (MEMORY_SIZE : Int) (buf : Mem) (ops : List Op) : Option Sys :=
  ops.foldlM Sys.step { st := init_myalloc MEMORY_SIZE buf, live := [] }

/-- A buffer whose bytes are all zero. -/
def zeroMem : Mem := fun _ => 0

/-- What the scan knows about `locPtr` after the blocks `seen`: it is `NULL`
exactly when no header reached `req`, and otherwise it is the offset of a block
of `seen` whose header is at least `req` and at most every such header. -/
def ScanInv (m : Mem) (req : Int) (seen : List (Int × Int)) (loc : Option Int) : Prop :=
  (loc = none → ∀ b ∈ seen, b.2 < req) ∧
  (∀ l, loc = some l → (l, readInt m l) ∈ seen ∧ req ≤ readInt m l ∧
    ∀ b ∈ seen, req ≤ b.2 → readInt m l ≤ b.2)

/-- The memory `myalloc(size)` leaves when it carves the block at `o`, whose
header was `F`: the four tag words it writes, in the order it writes them. -/
def splitMem (m : Mem) (o size F : Int) : Mem :=
  writeInt (writeInt (writeInt (writeInt m (o + size + 8) (F - size - 8)) o (-size))
    (o + size + 4) (-size)) (o + F + 4) (F - size - 8)

/-- The memory after `myfree(o + 4)` on the block just split off at `o` by
`myalloc(n)`: the five tag words `myfree` writes when it merges the block with
the remainder to its right and finds nothing to merge on its left. -/
def mergedMem (m : Mem) (o n F : Int) : Mem :=
  writeInt (writeInt (writeInt (writeInt (writeInt (splitMem m o n F) o n) (o + n + 4) n)
    o (F - 8)) o F) (o + F + 4) F

/-- A pool of 157 bytes in which used blocks of payload 4 separate free blocks of
payload 40, 12 and 25; a free block of payload 0 ends the pool. -/
def samplePool : Alloc :=
  let s := init_myalloc 157 zeroMem
  let s := (myalloc s 4).1
  let s := (myalloc s 40).1
  let s := (myalloc s 4).1
  let s := (myalloc s 12).1
  let s := (myalloc s 4).1
  let s := (myalloc s 25).1
  let s := (myalloc s 4).1
  let s := myfree s 16
  let s := myfree s 76
  myfree s 108

/-! ### Layouts, the steps of `myfree`, and instrumented copies -/

/-- Every block of `l` has its header, and its footer equal to it, in memory `m`. -/
def Tagged (m : Mem) (l : List (Int × Int)) : Prop :=
  ∀ x ∈ l, readInt m x.1 = x.2 ∧ readInt m (x.1 + 4 + |x.2|) = x.2

/-- The pool of `M` bytes held in `m` consists of exactly the blocks `l`, back to
back from offset 0 to offset `M`, each with its header and footer. -/
def Layout (m : Mem) (M : Int) (l : List (Int × Int)) : Prop :=
  Linked 0 l M ∧ Tagged m l

/-- Two neighbouring blocks are not both free. -/
def NotBothFree (x y : Int × Int) : Prop := ¬ (0 ≤ x.2 ∧ 0 ≤ y.2)

/-- The first two statements of `myfree`: the block is marked as unused. -/
def markStep (m : Mem) (oldptr : Int) : Mem :=
  let m1 := writeInt m (oldptr - 4) |readInt m (oldptr - 4)|
  writeInt m1 (oldptr + readInt m1 (oldptr - 4)) (readInt m1 (oldptr - 4))

/-- The first `if` of `myfree`: coalescing with the block on the right. -/
def rightStep (m2 : Mem) (M oldptr : Int) : Mem :=
  if readInt m2 (oldptr + |readInt m2 (oldptr - 4)| + 4) ≥ 0
      ∧ oldptr + |readInt m2 (oldptr - 4)| + 4 ≠ M then
    let a := writeInt m2 (oldptr - 4)
      (readInt m2 (oldptr - 4) + readInt m2 (oldptr + |readInt m2 (oldptr - 4)| + 4))
    let b := writeInt a (oldptr - 4) (readInt a (oldptr - 4) + 8)
    writeInt b (oldptr + readInt b (oldptr - 4)) (readInt b (oldptr - 4))
  else m2

/-- The second `if` of `myfree`: coalescing with the block on the left. -/
def leftStep (m3 : Mem) (oldptr : Int) : Mem :=
  if readInt m3 (oldptr - 8) ≥ 0 ∧ oldptr - 8 > 0 then
    let a := writeInt m3 (oldptr - readInt m3 (oldptr - 8) - 12)
      (readInt m3 (oldptr - readInt m3 (oldptr - 8) - 12) + (readInt m3 (oldptr - 4) + 8))
    writeInt a (oldptr + readInt a (oldptr - 4))
      (readInt a (oldptr - readInt a (oldptr - 8) - 12))
  else m3

/-- A pool of 64 bytes with blocks of payload 4 at 0 (used), 12 (free), 24 (used)
and 36 (used), and a free block of payload 8 at 48. -/
def leftPool : Alloc :=
  let s := init_myalloc 64 zeroMem
  let s := (myalloc s 4).1
  let s := (myalloc s 4).1
  let s := (myalloc s 4).1
  let s := (myalloc s 4).1
  myfree s 16

/-- A pool of 137 bytes whose free blocks have payload 40, 12 and 25, in that
order, separated by used blocks of payload 4; a used block starts the pool. -/
def fitPool : Alloc :=
  let s := init_myalloc 137 zeroMem
  let s := (myalloc s 4).1
  let s := (myalloc s 40).1
  let s := (myalloc s 4).1
  let s := (myalloc s 12).1
  let s := (myalloc s 4).1
  let s := myfree s 16
  myfree s 76

/-- A pool of 64 bytes with two free blocks of the same payload 12, at 12 and at
44, after used blocks of payload 4 at 0 and at 32. -/
def tiePool : Alloc :=
  let s := init_myalloc 64 zeroMem
  let s := (myalloc s 4).1
  let s := (myalloc s 12).1
  let s := (myalloc s 4).1
  myfree s 16

/-- An access to a word (`int`) of memory, by the offset of its first byte. -/
inductive Access where
  | read (a : Int)
  | write (a : Int)
  deriving DecidableEq

/-- `myfree(oldptr)` together with the word accesses it makes, statement by
statement; within a statement the operands are listed from left to right.  The
second operand of an `&&` is evaluated, and its reads made, only when the first
holds. -/
def myfreeLog (s : Alloc) (oldptr : Int) : Alloc × List Access :=
  let M := s.MEMORY_SIZE
  let log : List Access := [.read (oldptr - 4), .write (oldptr - 4)]
  let m1 := writeInt s.mem (oldptr - 4) |readInt s.mem (oldptr - 4)|
  let log := log ++ [.read (oldptr - 4), .read (oldptr - 4),
    .write (oldptr + readInt m1 (oldptr - 4))]
  let m2 := writeInt m1 (oldptr + readInt m1 (oldptr - 4)) (readInt m1 (oldptr - 4))
  let log := log ++ [.read (oldptr - 4), .read (oldptr + |readInt m2 (oldptr - 4)| + 4)]
  let log := if readInt m2 (oldptr + |readInt m2 (oldptr - 4)| + 4) ≥ 0 then
    log ++ [.read (oldptr - 4)] else log
  let r3 : Mem × List Access :=
    if readInt m2 (oldptr + |readInt m2 (oldptr - 4)| + 4) ≥ 0
        ∧ oldptr + |readInt m2 (oldptr - 4)| + 4 ≠ M then
      let log := log ++ [.read (oldptr - 4), .read (oldptr + |readInt m2 (oldptr - 4)| + 4),
        .read (oldptr - 4), .write (oldptr - 4)]
      let a := writeInt m2 (oldptr - 4)
        (readInt m2 (oldptr - 4) + readInt m2 (oldptr + |readInt m2 (oldptr - 4)| + 4))
      let log := log ++ [.read (oldptr - 4), .write (oldptr - 4)]
      let b := writeInt a (oldptr - 4) (readInt a (oldptr - 4) + 8)
      let log := log ++ [.read (oldptr - 4), .read (oldptr - 4),
        .write (oldptr + readInt b (oldptr - 4))]
      (writeInt b (oldptr + readInt b (oldptr - 4)) (readInt b (oldptr - 4)), log)
    else (m2, log)
  let m3 := r3.1
  let log := r3.2 ++ [.read (oldptr - 8)]
  let r4 : Mem × List Access :=
    if readInt m3 (oldptr - 8) ≥ 0 ∧ oldptr - 8 > 0 then
      let log := log ++ [.read (oldptr - 8), .read (oldptr - 4),
        .read (oldptr - readInt m3 (oldptr - 8) - 12),
        .write (oldptr - readInt m3 (oldptr - 8) - 12)]
      let a := writeInt m3 (oldptr - readInt m3 (oldptr - 8) - 12)
        (readInt m3 (oldptr - readInt m3 (oldptr - 8) - 12) + (readInt m3 (oldptr - 4) + 8))
      let log := log ++ [.read (oldptr - 4), .read (oldptr - 8),
        .read (oldptr - readInt a (oldptr - 8) - 12),
        .write (oldptr + readInt a (oldptr - 4))]
      (writeInt a (oldptr + readInt a (oldptr - 4))
        (readInt a (oldptr - readInt a (oldptr - 8) - 12)), log)
    else (m3, log)
  ({ s with mem := r4.1 }, r4.2)

/-- Whether the word at offset `a` lies entirely inside the pool. -/
def inPool (s : Alloc) (a : Int) : Prop := 0 ≤ a ∧ a + 4 ≤ s.MEMORY_SIZE

instance (s : Alloc) (a : Int) : Decidable (inPool s a) :=
  inferInstanceAs (Decidable (0 ≤ a ∧ a + 4 ≤ s.MEMORY_SIZE))

/-- The offset of the word an access touches. -/
def Access.addr : Access → Int
  | .read a => a
  | .write a => a

/-- What the `while` loop of `myalloc` has done when it exits: the final `locPtr`
and `freeptr`, the number of iterations, and the offsets of the words it read. -/
structure ScanResult where
  locPtr : Option Int
  freeptr : Int
  iterations : Nat
  reads : List Int

/-- The offsets of the words read by one iteration of the `while` loop of `myalloc`:
the test of the header at `freeptr`, the comparison with the header at `locPtr`
when there is a candidate and the test holds, and the step to the next block. -/
def scanReads (m : Mem) (size : Int) (freeptr : Int) (locPtr : Option Int) : List Int :=
  match locPtr with
  | none => [freeptr, freeptr]
  | some l =>
    if readInt m freeptr ≥ wrap32 (size + 8) then [freeptr, freeptr, l, freeptr]
    else [freeptr, freeptr]

/-- The `while` loop of `myalloc` with its iterations counted and its reads
recorded. -/
def scanRun (m : Mem) (M size : Int) : Nat → Int → Option Int → ScanResult
  | 0, freeptr, locPtr =>
    { locPtr := locPtr, freeptr := freeptr, iterations := 0, reads := [] }
  | n + 1, freeptr, locPtr =>
    if freeptr < M then
      let r := scanRun m M size n (freeptr + |readInt m freeptr| + 8)
        (scanStep m size freeptr locPtr)
      { locPtr := r.locPtr, freeptr := r.freeptr, iterations := r.iterations + 1,
        reads := scanReads m size freeptr locPtr ++ r.reads }
    else { locPtr := locPtr, freeptr := freeptr, iterations := 0, reads := [] }

/-- The state after `k` calls `myalloc(n)` in a row, starting from `s`. -/
def allocTimes (s : Alloc) (n : Int) : Nat → Alloc
  | 0 => s
  | k + 1 => (myalloc (allocTimes s n k) n).1

/-- The used blocks of payload `n` numbered `0 .. k - 1`, back to back from 0. -/
def usedBlocks (n : Int) (k : Nat) : List (Int × Int) :=
  (List.range k).map (fun (i : Nat) => ((i : Int) * (n + 8), -n))

/-- A call with a strictly positive request: `myalloc(size)` with `size >= 1` and
`size + 8` an `int`; any `myfree`. -/
def Op.Positive : Op → Prop
  | .alloc size => 1 ≤ size ∧ size + 8 ≤ INT_MAX
  | .free _ => True

/-- Well-formedness with the client's allocations: the pool is well formed (blocks
tile it, footers repeat headers, no two adjacent blocks are free) and every live
allocation `p` of requested size `n` has the words at `p - 4` and at `p + n` both
equal to `-n`. -/
def Sys.Good (σ : Sys) : Prop :=
  WellFormed σ.st ∧
  ∀ e ∈ σ.live, readInt σ.st.mem (e.1 - 4) = -e.2 ∧ readInt σ.st.mem (e.1 + e.2) = -e.2

/-- The invariant behind `Sys.Good`: every live allocation is a used block of the
forward walk, of the size that was requested, and no address is live twice. -/
def Sys.Inv (σ : Sys) : Prop :=
  WellFormed σ.st ∧
  (∀ e ∈ σ.live, 1 ≤ e.2 ∧ (e.1 - 4, -e.2) ∈ blocks σ.st) ∧
  (σ.live.map Prod.fst).Nodup

/-! ## Memory reads and writes -/

theorem wrap32_of_range (v : Int) (h1 : -2147483648 ≤ v) (h2 : v ≤ 2147483647) :
    wrap32 v = v := by
  unfold wrap32; omega

theorem wrap32_range (v : Int) : -2147483648 ≤ wrap32 v ∧ wrap32 v ≤ 2147483647 := by
  unfold wrap32; omega

theorem byteOf_val (v : Int) (k : Nat) :
    ((byteOf v k).val : Int) = ((v % 4294967296) / (256 ^ k)) % 256 := by
  unfold byteOf
  simp [Fin.ofNat]
  have h : 0 ≤ (v % 4294967296) / (256 ^ k) := by
    apply Int.ediv_nonneg
    · omega
    · positivity
  omega

theorem readInt_range (m : Mem) (a : Int) :
    -2147483648 ≤ readInt m a ∧ readInt m a ≤ 2147483647 := wrap32_range _

theorem readInt_writeInt_same (m : Mem) (a v : Int) :
    readInt (writeInt m a v) a = wrap32 v := by
  unfold readInt writeInt
  simp [byteOf_val]
  unfold wrap32
  omega

theorem writeInt_byte_ne (m : Mem) (a v i : Int) (h : i < a ∨ a + 4 ≤ i) :
    writeInt m a v i = m i := by
  unfold writeInt
  have h0 : i ≠ a := by omega
  have h1 : i ≠ a + 1 := by omega
  have h2 : i ≠ a + 2 := by omega
  have h3 : i ≠ a + 3 := by omega
  simp [h0, h1, h2, h3]

theorem readInt_congr (m m' : Mem) (a : Int)
    (h : ∀ i, a ≤ i → i < a + 4 → m' i = m i) : readInt m' a = readInt m a := by
  unfold readInt
  rw [h a (by omega) (by omega), h (a+1) (by omega) (by omega),
    h (a+2) (by omega) (by omega), h (a+3) (by omega) (by omega)]

theorem readInt_writeInt_ne (m : Mem) (a v b : Int) (h : b + 4 ≤ a ∨ a + 4 ≤ b) :
    readInt (writeInt m a v) b = readInt m b := by
  apply readInt_congr
  intro i h1 h2
  exact writeInt_byte_ne m a v i (by omega)

theorem wrap32_emod (u : Int) (h0 : 0 ≤ u) (h1 : u < 4294967296) :
    wrap32 u % 4294967296 = u := by
  unfold wrap32; omega

theorem byteOf_readInt (m : Mem) (a : Int) :
    byteOf (readInt m a) 0 = m a ∧ byteOf (readInt m a) 1 = m (a + 1)
    ∧ byteOf (readInt m a) 2 = m (a + 2) ∧ byteOf (readInt m a) 3 = m (a + 3) := by
  have b0 := (m a).isLt
  have b1 := (m (a + 1)).isLt
  have b2 := (m (a + 2)).isLt
  have b3 := (m (a + 3)).isLt
  have hu : readInt m a % 4294967296 = ((m a).val : Int) + 256 * ((m (a + 1)).val : Int)
      + 65536 * ((m (a + 2)).val : Int) + 16777216 * ((m (a + 3)).val : Int) := by
    unfold readInt
    apply wrap32_emod <;> omega
  refine ⟨?_, ?_, ?_, ?_⟩ <;> apply Fin.ext <;> apply Int.ofNat_inj.mp <;>
    rw [byteOf_val, hu] <;> norm_num <;> omega

theorem writeInt_readInt_self (m : Mem) (a : Int) : writeInt m a (readInt m a) = m := by
  obtain ⟨h0, h1, h2, h3⟩ := byteOf_readInt m a
  funext i
  unfold writeInt
  split_ifs with g0 g1 g2 g3
  · rw [h0, g0]
  · rw [h1, g1]
  · rw [h2, g2]
  · rw [h3, g3]
  · rfl

attribute [irreducible] wrap32 readInt writeInt

theorem readInt_writeInt_lo (m : Mem) (a v b : Int) (h : b + 4 ≤ a) :
    readInt (writeInt m a v) b = readInt m b :=
  readInt_writeInt_ne m a v b (Or.inl h)

theorem readInt_writeInt_hi (m : Mem) (a v b : Int) (h : a + 4 ≤ b) :
    readInt (writeInt m a v) b = readInt m b :=
  readInt_writeInt_ne m a v b (Or.inr h)

theorem readInt_writeInt_val (m : Mem) (a v : Int) (h1 : -2147483648 ≤ v)
    (h2 : v ≤ 2147483647) : readInt (writeInt m a v) a = v := by
  rw [readInt_writeInt_same, wrap32_of_range v h1 h2]

/-! ### The forward walk -/

theorem walk_snd (m : Mem) (M : Int) (n : Nat) (pos : Int) :
    ∀ b ∈ walk m M n pos, b.2 = readInt m b.1 := by
  induction n generalizing pos with
  | zero => intro b hb; simp [walk] at hb
  | succ n ih =>
    intro b hb
    unfold walk at hb
    split_ifs at hb with h
    · rcases List.mem_cons.mp hb with rfl | hb
      · rfl
      · exact ih _ b hb
    · simp at hb

theorem walk_lt (m : Mem) (M : Int) (n : Nat) (pos : Int) :
    ∀ b ∈ walk m M n pos, b.1 < M := by
  induction n generalizing pos with
  | zero => intro b hb; simp [walk] at hb
  | succ n ih =>
    intro b hb
    unfold walk at hb
    split_ifs at hb with h
    · rcases List.mem_cons.mp hb with rfl | hb
      · exact h
      · exact ih _ b hb
    · simp at hb

theorem walk_linked (m : Mem) (M : Int) (n : Nat) (pos : Int) :
    Linked pos (walk m M n pos) (walkEnd m M n pos) := by
  induction n generalizing pos with
  | zero => simp [walk, walkEnd, Linked]
  | succ n ih =>
    unfold walk walkEnd
    split_ifs with h
    · exact ⟨rfl, ih _⟩
    · simp [Linked]

/-- The loop guard, not the fuel, ends the walk: with `n` iterations allowed
and `M ≤ pos + 8 * n` the cursor reaches `M`. -/
theorem walkEnd_ge (m : Mem) (M : Int) (n : Nat) (pos : Int) (h : M ≤ pos + 8 * n) :
    M ≤ walkEnd m M n pos := by
  induction n generalizing pos with
  | zero => simpa [walkEnd] using h
  | succ n ih =>
    unfold walkEnd
    split_ifs with hlt
    · apply ih
      have := abs_nonneg (readInt m pos)
      push_cast at h
      omega
    · omega

theorem cursor_ge (s : Alloc) : s.MEMORY_SIZE ≤ cursor s := by
  apply walkEnd_ge
  omega

/-- More fuel than `walkEnd_ge` asks for changes nothing in the scan of
`myalloc`: the `while` loop has exited through its guard. -/
theorem scanLoop_fuel (m : Mem) (M size : Int) (n k : Nat) (pos : Int) (loc : Option Int)
    (h : M ≤ pos + 8 * n) :
    scanLoop m M size (n + k) pos loc = scanLoop m M size n pos loc := by
  induction n generalizing pos loc with
  | zero =>
    have hp : ¬ pos < M := by simpa using h
    cases k with
    | zero => rfl
    | succ k => simp [scanLoop, hp]
  | succ n ih =>
    rw [Nat.add_right_comm]
    unfold scanLoop
    split_ifs with hlt
    · apply ih
      have := abs_nonneg (readInt m pos)
      push_cast at h
      omega
    · rfl

/-- The result of the scan of `myalloc` does not depend on the fuel: any number
of iterations from `MEMORY_SIZE` on gives the same `locPtr`. -/
theorem chosen_fuel (s : Alloc) (size : Int) (k : Nat) :
    scanLoop s.mem s.MEMORY_SIZE size (s.MEMORY_SIZE.toNat + k) 0 none = chosen s size := by
  unfold chosen
  apply scanLoop_fuel
  omega

theorem linked_le : ∀ (l : List (Int × Int)) (a b : Int), Linked a l b → a ≤ b
  | [], a, b, h => by simp [Linked] at h; omega
  | x :: rest, a, b, h => by
    obtain ⟨_, h2⟩ := h
    have := linked_le rest _ _ h2
    have := abs_nonneg x.2
    omega

theorem linked_mem : ∀ (l : List (Int × Int)) (a b : Int), Linked a l b →
    ∀ x ∈ l, a ≤ x.1 ∧ x.1 + |x.2| + 8 ≤ b
  | [], _, _, _ => by simp
  | y :: rest, a, b, h => by
    obtain ⟨h1, h2⟩ := h
    intro x hx
    rcases List.mem_cons.mp hx with e | hx'
    · subst e
      have := linked_le rest _ _ h2
      omega
    · have := linked_mem rest _ _ h2 x hx'
      have := abs_nonneg y.2
      omega

/-- Two blocks of a linked list are the same block or do not overlap. -/
theorem linked_disjoint : ∀ (l : List (Int × Int)) (a b : Int), Linked a l b →
    ∀ x ∈ l, ∀ y ∈ l, x = y ∨ x.1 + |x.2| + 8 ≤ y.1 ∨ y.1 + |y.2| + 8 ≤ x.1
  | [], _, _, _ => by simp
  | z :: rest, a, b, h => by
    obtain ⟨h1, h2⟩ := h
    intro x hx y hy
    rcases List.mem_cons.mp hx with ex | hx' <;> rcases List.mem_cons.mp hy with ey | hy'
    · exact Or.inl (ex.trans ey.symm)
    · subst ex
      have := linked_mem rest _ _ h2 y hy'
      right; left; omega
    · subst ey
      have := linked_mem rest _ _ h2 x hx'
      right; right; omega
    · exact linked_disjoint rest _ _ h2 x hx' y hy'

/-- In a linked list without two adjacent free blocks whose footers repeat the
headers, the word just before a free block that is not the first one is the
negative footer of its left neighbour. -/
theorem linked_left_used (m : Mem) : ∀ (l : List (Int × Int)) (a b : Int), Linked a l b →
    adjacentFree l = false → (∀ x ∈ l, readInt m (x.1 + 4 + |x.2|) = x.2) →
    ∀ x ∈ l, 0 ≤ x.2 → a < x.1 → readInt m (x.1 - 4) < 0
  | [], _, _, _, _, _ => by simp
  | [z], a, b, h, _, _ => by
    intro x hx _ hlt
    obtain ⟨h1, _⟩ := h
    simp at hx
    subst hx
    omega
  | z :: y :: rest, a, b, h, hadj, htag => by
    intro x hx hx0 hlt
    obtain ⟨h1, h2⟩ := h
    have h2' := h2
    obtain ⟨h3, h4⟩ := h2
    simp only [adjacentFree, Bool.or_eq_false_iff, Bool.and_eq_false_iff,
      decide_eq_false_iff_not] at hadj
    obtain ⟨hzy, hadj'⟩ := hadj
    rcases List.mem_cons.mp hx with ex | hx'
    · subst ex
      omega
    · by_cases hxy : x.1 = y.1
      · have hxeq : x = y := by
          rcases linked_disjoint (y :: rest) _ _ h2' x hx' y (List.mem_cons_self _ _) with
            e | e | e
          · exact e
          · have := abs_nonneg x.2; omega
          · have := abs_nonneg y.2; omega
        subst hxeq
        have hz : z.2 < 0 := by
          rcases hzy with hz | hz
          · omega
          · omega
        have := htag z (List.mem_cons_self _ _)
        have e : x.1 - 4 = z.1 + 4 + |z.2| := by omega
        rw [e, this]
        exact hz
      · apply linked_left_used m (y :: rest) _ b h2' hadj'
          (fun w hw => htag w (List.mem_cons_of_mem _ hw)) x hx' hx0
        have := (linked_mem (y :: rest) _ _ h2' x hx').1
        omega

/-! ### The best-fit scan -/

theorem scanLoop_eq_foldl (m : Mem) (M size : Int) (n : Nat) (pos : Int) (loc : Option Int) :
    scanLoop m M size n pos loc
      = (walk m M n pos).foldl (fun l b => scanStep m size b.1 l) loc := by
  induction n generalizing pos loc with
  | zero => rfl
  | succ n ih =>
    unfold scanLoop walk
    split_ifs with h
    · rw [ih]; rfl
    · rfl

theorem scanInv_step (m : Mem) (size : Int) (seen : List (Int × Int)) (loc : Option Int)
    (b : Int × Int) (hb : b.2 = readInt m b.1)
    (h : ScanInv m (wrap32 (size + 8)) seen loc) :
    ScanInv m (wrap32 (size + 8)) (seen ++ [b]) (scanStep m size b.1 loc) := by
  obtain ⟨h1, h2⟩ := h
  have hbe : b = (b.1, readInt m b.1) := by rw [← hb]
  cases loc with
  | none =>
    have h1' := h1 rfl
    unfold scanStep
    by_cases hc : readInt m b.1 ≥ wrap32 (size + 8)
    · simp only [hc, if_true]
      refine ⟨by simp, ?_⟩
      intro l hl
      cases hl
      refine ⟨by rw [← hbe]; simp, hc, ?_⟩
      intro c hc' hreq
      rcases List.mem_append.mp hc' with hc' | hc'
      · have := h1' c hc'; omega
      · simp at hc'; subst hc'; omega
    · simp only [hc, if_false]
      refine ⟨?_, by simp⟩
      intro _ c hc'
      rcases List.mem_append.mp hc' with hc' | hc'
      · exact h1' c hc'
      · simp at hc'; subst hc'; omega
  | some l =>
    obtain ⟨g1, g2, g3⟩ := h2 l rfl
    unfold scanStep
    by_cases hc : readInt m b.1 ≥ wrap32 (size + 8)
    · by_cases hd : readInt m b.1 ≤ readInt m l
      · simp only [hc, hd, if_true]
        refine ⟨by simp, ?_⟩
        intro l' hl
        cases hl
        refine ⟨by rw [← hbe]; simp, hc, ?_⟩
        intro c hc' hreq
        rcases List.mem_append.mp hc' with hc' | hc'
        · have := g3 c hc' hreq; omega
        · simp at hc'; subst hc'; omega
      · simp only [hc, hd, if_true, if_false]
        refine ⟨by simp, ?_⟩
        intro l' hl
        cases hl
        refine ⟨List.mem_append_left _ g1, g2, ?_⟩
        intro c hc' hreq
        rcases List.mem_append.mp hc' with hc' | hc'
        · exact g3 c hc' hreq
        · simp at hc'; subst hc'; omega
    · simp only [hc, if_false]
      refine ⟨by simp, ?_⟩
      intro l' hl
      cases hl
      refine ⟨List.mem_append_left _ g1, g2, ?_⟩
      intro c hc' hreq
      rcases List.mem_append.mp hc' with hc' | hc'
      · exact g3 c hc' hreq
      · simp at hc'; subst hc'; omega

theorem scanInv_foldl (m : Mem) (size : Int) : ∀ (rest seen : List (Int × Int))
    (loc : Option Int), (∀ b ∈ rest, b.2 = readInt m b.1) →
    ScanInv m (wrap32 (size + 8)) seen loc →
    ScanInv m (wrap32 (size + 8)) (seen ++ rest)
      (rest.foldl (fun l b => scanStep m size b.1 l) loc)
  | [], seen, loc, _, h => by simpa using h
  | b :: rest, seen, loc, hr, h => by
    have h1 := scanInv_step m size seen loc b (hr b (List.mem_cons_self _ _)) h
    have h2 := scanInv_foldl m size rest (seen ++ [b]) _
      (fun c hc => hr c (List.mem_cons_of_mem _ hc)) h1
    simpa using h2

theorem chosen_inv (s : Alloc) (size : Int) :
    ScanInv s.mem (wrap32 (size + 8)) (blocks s) (chosen s size) := by
  unfold chosen blocks
  rw [scanLoop_eq_foldl]
  have := scanInv_foldl s.mem size (walk s.mem s.MEMORY_SIZE s.MEMORY_SIZE.toNat 0) [] none
    (walk_snd _ _ _ _) ⟨by simp, by simp⟩
  simpa using this

/-- The scan returns `NULL` exactly when no block header reaches `size + 8`
(computed in `int`). -/
theorem chosen_eq_none_iff (s : Alloc) (size : Int) :
    chosen s size = none ↔ ∀ b ∈ blocks s, b.2 < wrap32 (size + 8) := by
  obtain ⟨h1, h2⟩ := chosen_inv s size
  constructor
  · exact h1
  · intro h
    cases hc : chosen s size with
    | none => rfl
    | some l =>
      obtain ⟨g1, g2, _⟩ := h2 l hc
      have := h _ g1
      simp at this
      omega

theorem chosen_eq_some (s : Alloc) (size o : Int) (h : chosen s size = some o) :
    (o, readInt s.mem o) ∈ blocks s ∧ wrap32 (size + 8) ≤ readInt s.mem o ∧
      ∀ b ∈ blocks s, wrap32 (size + 8) ≤ b.2 → readInt s.mem o ≤ b.2 :=
  (chosen_inv s size).2 o h

/-! ### The split made by `myalloc` -/

theorem chosen_header_ge (s : Alloc) (size o : Int) (h0 : 0 ≤ size)
    (hmax : size + 8 ≤ INT_MAX) (hc : chosen s size = some o) :
    size + 8 ≤ readInt s.mem o := by
  have h := (chosen_eq_some s size o hc).2.1
  unfold INT_MAX at hmax
  rwa [wrap32_of_range _ (by omega) (by omega)] at h

theorem myalloc_of_chosen (s : Alloc) (size o : Int) (h0 : 0 ≤ size)
    (hmax : size + 8 ≤ INT_MAX) (hc : chosen s size = some o) :
    myalloc s size =
      ({ s with mem := splitMem s.mem o size (readInt s.mem o) }, some (o + 4)) := by
  have hF := chosen_header_ge s size o h0 hmax hc
  have hr := readInt_range s.mem o
  unfold INT_MAX at hmax
  unfold myalloc
  rw [hc]
  simp only
  have e1 : size * -1 = -size := by ring
  have e2 : o + size + 4 + 4 = o + size + 8 := by ring
  have e3 : o + size + 8 - 4 = o + size + 4 := by ring
  rw [e1, e2, e3]
  have r3 : readInt (writeInt (writeInt (writeInt s.mem (o + size + 8)
      (readInt s.mem o - size - 8)) o (-size)) (o + size + 4) (-size)) (o + size + 8)
      = readInt s.mem o - size - 8 := by
    rw [readInt_writeInt_ne _ _ _ _ (by omega), readInt_writeInt_ne _ _ _ _ (by omega),
      readInt_writeInt_same, wrap32_of_range _ (by omega) (by omega)]
  rw [r3]
  have e4 : readInt s.mem o - size - 8 + (o + size + 8) + 4 = o + readInt s.mem o + 4 := by
    ring
  rw [e4]
  have r4 : readInt (writeInt (writeInt (writeInt (writeInt s.mem (o + size + 8)
      (readInt s.mem o - size - 8)) o (-size)) (o + size + 4) (-size))
      (o + readInt s.mem o + 4) (readInt s.mem o - size - 8)) (o + size + 4) = -size := by
    rw [readInt_writeInt_ne _ _ _ _ (by omega), readInt_writeInt_same,
      wrap32_of_range _ (by omega) (by omega)]
  rw [r4]
  have e5 : o + size + 4 + -size = o + 4 := by ring
  rw [e5]
  rfl

theorem splitMem_reads (m : Mem) (o size : Int) (h0 : 0 ≤ size)
    (hF : size + 8 ≤ readInt m o) :
    readInt (splitMem m o size (readInt m o)) o = -size ∧
    readInt (splitMem m o size (readInt m o)) (o + 4 + size) = -size ∧
    readInt (splitMem m o size (readInt m o)) (o + size + 8) = readInt m o - size - 8 ∧
    readInt (splitMem m o size (readInt m o)) (o + readInt m o + 4)
      = readInt m o - size - 8 := by
  have hr := readInt_range m o
  have e : o + 4 + size = o + size + 4 := by ring
  unfold splitMem
  refine ⟨?_, ?_, ?_, ?_⟩
  · rw [readInt_writeInt_ne _ _ _ _ (by omega), readInt_writeInt_ne _ _ _ _ (by omega),
      readInt_writeInt_same, wrap32_of_range _ (by omega) (by omega)]
  · rw [e, readInt_writeInt_ne _ _ _ _ (by omega), readInt_writeInt_same,
      wrap32_of_range _ (by omega) (by omega)]
  · rw [readInt_writeInt_ne _ _ _ _ (by omega), readInt_writeInt_ne _ _ _ _ (by omega),
      readInt_writeInt_ne _ _ _ _ (by omega),
      readInt_writeInt_same, wrap32_of_range _ (by omega) (by omega)]
  · rw [readInt_writeInt_same, wrap32_of_range _ (by omega) (by omega)]

/-- Outside the four tag words the split leaves every byte as it was. -/
theorem splitMem_byte (m : Mem) (o size F i : Int)
    (h1 : i < o ∨ o + 4 ≤ i) (h2 : i < o + size + 4 ∨ o + size + 12 ≤ i)
    (h3 : i < o + F + 4 ∨ o + F + 8 ≤ i) :
    splitMem m o size F i = m i := by
  unfold splitMem
  rw [writeInt_byte_ne _ _ _ _ (by omega), writeInt_byte_ne _ _ _ _ (by omega),
    writeInt_byte_ne _ _ _ _ (by omega), writeInt_byte_ne _ _ _ _ (by omega)]

/-! ### `myfree` right after `myalloc` -/

theorem writeInt_byte_same (m m0 : Mem) (a i : Int) (h1 : a ≤ i) (h2 : i < a + 4) :
    writeInt m a (readInt m0 a) i = m0 i := by
  obtain ⟨b0, b1, b2, b3⟩ := byteOf_readInt m0 a
  unfold writeInt
  split_ifs with g0 g1 g2 g3
  · rw [b0, g0]
  · rw [b1, g1]
  · rw [b2, g2]
  · rw [b3, g3]
  · omega

theorem myfree_splitMem (m : Mem) (M o n : Int) (h0 : 0 ≤ n) (hF : n + 8 ≤ readInt m o)
    (hM : o + readInt m o + 8 ≤ M) (hleft : 0 < o → readInt m (o - 4) < 0) :
    myfree { MEMORY_SIZE := M, mem := splitMem m o n (readInt m o) } (o + 4)
      = { MEMORY_SIZE := M, mem := mergedMem m o n (readInt m o) } := by
  have hr := readInt_range m o
  obtain ⟨s1, s2, s3, s4⟩ := splitMem_reads m o n h0 hF
  have hpre : readInt (splitMem m o n (readInt m o)) (o - 4) = readInt m (o - 4) := by
    apply readInt_congr
    intro i hi1 hi2
    exact splitMem_byte m o n _ i (Or.inl (by linarith)) (Or.inl (by linarith))
      (Or.inl (by linarith))
  generalize readInt m o = F at *
  generalize hm' : splitMem m o n F = m' at *
  obtain ⟨hr1, hr2⟩ := hr
  unfold myfree
  simp only
  have e0 : o + 4 - 4 = o := by ring
  have e8 : o + 4 - 8 = o - 4 := by ring
  rw [e0, e8, s1, abs_neg, abs_of_nonneg h0]
  have r1 : readInt (writeInt m' o n) o = n :=
    readInt_writeInt_val _ _ _ (by linarith) (by linarith)
  rw [r1]
  have r2 : readInt (writeInt (writeInt m' o n) (o + 4 + n) n) o = n := by
    rw [readInt_writeInt_lo _ _ _ _ (by linarith), r1]
  rw [r2, abs_of_nonneg h0]
  have e1 : o + 4 + n + 4 = o + n + 8 := by ring
  rw [e1]
  have r3 : readInt (writeInt (writeInt m' o n) (o + 4 + n) n) (o + n + 8) = F - n - 8 := by
    rw [readInt_writeInt_hi _ _ _ _ (by linarith), readInt_writeInt_hi _ _ _ _ (by linarith),
      s3]
  rw [r3]
  have c1 : F - n - 8 ≥ 0 ∧ o + n + 8 ≠ M := ⟨by linarith, ne_of_lt (by linarith)⟩
  rw [if_pos c1]
  have e2 : n + (F - n - 8) = F - 8 := by ring
  rw [e2]
  have r4 : readInt (writeInt (writeInt (writeInt m' o n) (o + 4 + n) n) o (F - 8)) o
      = F - 8 := readInt_writeInt_val _ _ _ (by linarith) (by linarith)
  rw [r4]
  have e3 : F - 8 + 8 = F := by ring
  rw [e3]
  have r5 : readInt (writeInt (writeInt (writeInt (writeInt m' o n) (o + 4 + n) n) o (F - 8))
      o F) o = F := readInt_writeInt_val _ _ _ hr1 hr2
  rw [r5]
  have c2 : ¬ (readInt (writeInt (writeInt (writeInt (writeInt (writeInt m' o n)
      (o + 4 + n) n) o (F - 8)) o F) (o + 4 + F) F) (o - 4) ≥ 0 ∧ o - 4 > 0) := by
    rintro ⟨g1, g2⟩
    rw [readInt_writeInt_lo _ _ _ _ (by linarith), readInt_writeInt_lo _ _ _ _ (by linarith),
      readInt_writeInt_lo _ _ _ _ (by linarith), readInt_writeInt_lo _ _ _ _ (by linarith),
      readInt_writeInt_lo _ _ _ _ (by linarith), hpre] at g1
    have := hleft (by linarith)
    linarith
  rw [if_neg c2]
  unfold mergedMem
  have e4 : o + 4 + n = o + n + 4 := by ring
  have e5 : o + 4 + F = o + F + 4 := by ring
  rw [e4, e5, hm']

/-- After the round trip every byte outside the payload `[o + 4, o + F + 4)` of
the block that was split is what it was before `myalloc`. -/
theorem mergedMem_byte (m : Mem) (o n i : Int) (h0 : 0 ≤ n) (hF : n + 8 ≤ readInt m o)
    (hfoot : readInt m (o + readInt m o + 4) = readInt m o)
    (hi : i < o + 4 ∨ o + readInt m o + 4 ≤ i) :
    mergedMem m o n (readInt m o) i = m i := by
  unfold mergedMem
  by_cases h1 : o + readInt m o + 4 ≤ i ∧ i < o + readInt m o + 8
  · have := writeInt_byte_same (writeInt (writeInt (writeInt (writeInt
      (splitMem m o n (readInt m o)) o n) (o + n + 4) n) o (readInt m o - 8)) o (readInt m o))
      m (o + readInt m o + 4) i h1.1 (by omega)
    rw [hfoot] at this
    exact this
  · rw [writeInt_byte_ne _ _ _ _ (by omega)]
    by_cases h2 : o ≤ i ∧ i < o + 4
    · exact writeInt_byte_same _ m o i h2.1 h2.2
    · rw [writeInt_byte_ne _ _ _ _ (by omega), writeInt_byte_ne _ _ _ _ (by omega),
        writeInt_byte_ne _ _ _ _ (by omega), writeInt_byte_ne _ _ _ _ (by omega)]
      exact splitMem_byte m o n _ i (by omega) (by omega) (by omega)

theorem walk_congr (m m' : Mem) (M : Int) (n : Nat) (pos : Int)
    (h : ∀ b ∈ walk m M n pos, readInt m' b.1 = readInt m b.1) :
    walk m' M n pos = walk m M n pos := by
  induction n generalizing pos with
  | zero => rfl
  | succ n ih =>
    unfold walk at h ⊢
    split_ifs at h ⊢ with hlt
    · have e := h _ (List.mem_cons_self _ _)
      simp only at e
      rw [e, ih]
      intro b hb
      exact h b (List.mem_cons_of_mem _ hb)
    · rfl

/-! ### Results on `myalloc` -/

theorem chosen_of_myalloc (s : Alloc) (size p : Int) (h0 : 0 ≤ size)
    (hmax : size + 8 ≤ INT_MAX) (hp : (myalloc s size).2 = some p) :
    chosen s size = some (p - 4) := by
  cases hc : chosen s size with
  | none =>
    unfold myalloc at hp
    rw [hc] at hp
    simp at hp
  | some o =>
    rw [myalloc_of_chosen s size o h0 hmax hc] at hp
    simp only [Option.some.injEq] at hp
    rw [← hp]
    congr 1
    ring

theorem myalloc_eq_none_iff (s : Alloc) (size : Int) :
    (myalloc s size).2 = none ↔ chosen s size = none := by
  unfold myalloc
  cases chosen s size with
  | none => simp
  | some o => simp

/-- The header `myalloc(size)` leaves in front of the address it returns is
`-size`: negative for `size ≥ 1`, and `0` for `size = 0`. -/
theorem myalloc_header (s : Alloc) (size p : Int) (h0 : 0 ≤ size)
    (hmax : size + 8 ≤ INT_MAX) (hp : (myalloc s size).2 = some p) :
    readInt (myalloc s size).1.mem (p - 4) = -size := by
  have hc := chosen_of_myalloc s size p h0 hmax hp
  have hF := chosen_header_ge s size (p - 4) h0 hmax hc
  rw [myalloc_of_chosen s size (p - 4) h0 hmax hc]
  exact (splitMem_reads s.mem (p - 4) size h0 hF).1

/-- C6 (best fit).  When `myalloc(size)` succeeds and returns `p`, the block it
carved the allocation from (header at `p - 4`) is one of the blocks of the pool, it
is free with a payload `F` of at least `size + 8`, and no free block with payload at
least `size + 8` has a payload strictly smaller than `F`.  This holds for every pool,
well-formed or not; `size + 8` is computed in `int` and must not overflow. -/
theorem myalloc_best_fit (s : Alloc) (size p : Int) (h0 : 0 ≤ size)
    (hmax : size + 8 ≤ INT_MAX) (hp : (myalloc s size).2 = some p) :
    chosen s size = some (p - 4) ∧
    (p - 4, readInt s.mem (p - 4)) ∈ blocks s ∧
    0 ≤ readInt s.mem (p - 4) ∧
    size + 8 ≤ readInt s.mem (p - 4) ∧
    ∀ b ∈ blocks s, 0 ≤ b.2 → size + 8 ≤ b.2 → ¬ b.2 < readInt s.mem (p - 4) := by
  have hc := chosen_of_myalloc s size p h0 hmax hp
  have hF := chosen_header_ge s size (p - 4) h0 hmax hc
  obtain ⟨h1, _, h3⟩ := chosen_eq_some s size (p - 4) hc
  refine ⟨hc, h1, by linarith, hF, ?_⟩
  intro b hb _ hreq
  have e : wrap32 (size + 8) = size + 8 := by
    unfold INT_MAX at hmax
    exact wrap32_of_range _ (by linarith) (by linarith)
  rw [e] at h3
  exact not_lt.mpr (h3 b hb hreq)

/-- In `samplePool` (free payloads 40, 12, 25 and 0) a request of 10 bytes needs a
header of at least 18 and is carved from the block of payload 25 at offset 104. -/
theorem myalloc_best_fit_witness :
    (myalloc samplePool 10).2 = some 108 ∧ blocks samplePool =
      [(0, -4), (12, 40), (60, -4), (72, 12), (92, -4), (104, 25), (137, -4), (149, 0)] ∧
    chosen samplePool 10 = some 104 :=
  ⟨by decide!, by decide!,
    (myalloc_best_fit samplePool 10 108 (by decide) (by decide) (by decide!)).1⟩

/-- C7.  `myalloc(size)` returns `NULL` exactly when no block of the pool has a
header of at least `size + 8`; so a free block whose payload is at least `size`
but less than `size + 8` does not satisfy the request.  `size + 8` is computed in
`int` and must not overflow. -/
theorem myalloc_null_iff (s : Alloc) (size : Int) (h0 : 0 ≤ size)
    (hmax : size + 8 ≤ INT_MAX) :
    (myalloc s size).2 = none ↔ ∀ b ∈ blocks s, b.2 < size + 8 := by
  have e : wrap32 (size + 8) = size + 8 := by
    unfold INT_MAX at hmax
    exact wrap32_of_range _ (by linarith) (by linarith)
  rw [myalloc_eq_none_iff, chosen_eq_none_iff, e]

/-- A pool whose only block is free with payload 20 refuses a request of 16 bytes. -/
theorem myalloc_null_iff_witness :
    blocks (init_myalloc 28 zeroMem) = [(0, 20)] ∧
      (myalloc (init_myalloc 28 zeroMem) 16).2 = none :=
  ⟨by decide!, (myalloc_null_iff (init_myalloc 28 zeroMem) 16 (by decide) (by decide)).mpr
    (by decide!)⟩

/-- C8 (atomic failure).  When `myalloc(size)` returns `NULL`, the state after the
call is the state before it: `MEMORY_SIZE` and every byte of memory are unchanged. -/
theorem myalloc_null_unchanged (s : Alloc) (size : Int) (h : (myalloc s size).2 = none) :
    (myalloc s size).1 = s ∧ (myalloc s size).1.MEMORY_SIZE = s.MEMORY_SIZE ∧
      ∀ i, (myalloc s size).1.mem i = s.mem i := by
  have e : (myalloc s size).1 = s := by
    unfold myalloc at h ⊢
    cases hc : chosen s size with
    | none => rfl
    | some o => rw [hc] at h; simp at h
  rw [e]
  exact ⟨rfl, rfl, fun _ => rfl⟩

/-- The refused request of 16 bytes leaves the pool of 28 bytes as it was. -/
theorem myalloc_null_unchanged_witness :
    (myalloc (init_myalloc 28 zeroMem) 16).1 = init_myalloc 28 zeroMem :=
  (myalloc_null_unchanged (init_myalloc 28 zeroMem) 16 (by decide!)).1

/-- C9 (split postcondition).  When `myalloc(size)` chooses the block with header
at `o` and payload `F`, then afterwards the words at `o` and `o + 4 + size` are
`-size`, the words at `o + size + 8` and `o + F + 4` are `F - size - 8 ≥ 0`, the
returned address is `o + 4`, and the footprints `size + 8` and `F - size - 8 + 8` of
the two blocks add up to the footprint `F + 8` of the block that was split. -/
theorem myalloc_split (s : Alloc) (size o : Int) (h0 : 0 ≤ size)
    (hmax : size + 8 ≤ INT_MAX) (hc : chosen s size = some o) :
    (myalloc s size).2 = some (o + 4) ∧
    readInt (myalloc s size).1.mem o = -size ∧
    readInt (myalloc s size).1.mem (o + 4 + size) = -size ∧
    readInt (myalloc s size).1.mem (o + size + 8) = readInt s.mem o - size - 8 ∧
    readInt (myalloc s size).1.mem (o + readInt s.mem o + 4) = readInt s.mem o - size - 8 ∧
    0 ≤ readInt s.mem o - size - 8 ∧
    (size + 8) + (readInt s.mem o - size - 8 + 8) = readInt s.mem o + 8 ∧
    (myalloc s size).1.MEMORY_SIZE = s.MEMORY_SIZE := by
  have hF := chosen_header_ge s size o h0 hmax hc
  obtain ⟨r1, r2, r3, r4⟩ := splitMem_reads s.mem o size h0 hF
  rw [myalloc_of_chosen s size o h0 hmax hc]
  exact ⟨rfl, r1, r2, r3, r4, by linarith, by ring, rfl⟩

/-- A request of 16 bytes on a fresh pool whose single free block has payload 100
gives a used block of payload 16 followed by a free block of payload 76. -/
theorem myalloc_split_witness :
    readInt (init_myalloc 108 zeroMem).mem 0 = 100 ∧
    (myalloc (init_myalloc 108 zeroMem) 16).2 = some 4 ∧
    blocks (myalloc (init_myalloc 108 zeroMem) 16).1 = [(0, -16), (24, 76)] :=
  ⟨by decide!, (myalloc_split (init_myalloc 108 zeroMem) 16 0 (by decide) (by decide)
    (by decide!)).1, by decide!⟩

/-- C10 (round trip).  In a well-formed pool, when `myalloc(n)` succeeds and returns
`p`, having carved the free block with header at `o = p - 4` and payload `F`, then
`myfree(p)` right afterwards gives back the same sequence of blocks: the words at `o`
and `o + F + 4` are `F` again, every other block has the header and the footer it had,
and indeed every byte outside the payload `[o + 4, o + F + 4)` is what it was. -/
theorem myfree_myalloc_roundtrip (s : Alloc) (n p : Int) (hwf : WellFormed s)
    (h0 : 0 ≤ n) (hmax : n + 8 ≤ INT_MAX) (hp : (myalloc s n).2 = some p) :
    blocks (myfree (myalloc s n).1 p) = blocks s ∧
    (p - 4, readInt s.mem (p - 4)) ∈ blocks s ∧
    0 ≤ readInt s.mem (p - 4) ∧
    readInt (myfree (myalloc s n).1 p).mem (p - 4) = readInt s.mem (p - 4) ∧
    readInt (myfree (myalloc s n).1 p).mem (p - 4 + readInt s.mem (p - 4) + 4)
      = readInt s.mem (p - 4) ∧
    (∀ b ∈ blocks s, b.1 ≠ p - 4 →
      readInt (myfree (myalloc s n).1 p).mem b.1 = b.2 ∧
      readInt (myfree (myalloc s n).1 p).mem (b.1 + 4 + |b.2|) = b.2) ∧
    (∀ i, i < p ∨ p + readInt s.mem (p - 4) ≤ i →
      (myfree (myalloc s n).1 p).mem i = s.mem i) ∧
    (myfree (myalloc s n).1 p).MEMORY_SIZE = s.MEMORY_SIZE := by
  obtain ⟨_, htiled, htags, hadj⟩ := hwf
  have hc := chosen_of_myalloc s n p h0 hmax hp
  have hF := chosen_header_ge s n (p - 4) h0 hmax hc
  have hmem := (chosen_eq_some s n (p - 4) hc).1
  have hlink : Linked 0 (blocks s) s.MEMORY_SIZE := by
    have := walk_linked s.mem s.MEMORY_SIZE s.MEMORY_SIZE.toNat 0
    unfold Tiled cursor at htiled
    rw [htiled] at this
    exact this
  have hsnd : ∀ b ∈ blocks s, b.2 = readInt s.mem b.1 := walk_snd _ _ _ _
  have hp4 : p = p - 4 + 4 := by ring
  generalize p - 4 = o at *
  subst hp4
  have hFabs : |readInt s.mem o| = readInt s.mem o := abs_of_nonneg (by linarith)
  have hb := linked_mem _ _ _ hlink _ hmem
  simp only [hFabs] at hb
  have hfoot : readInt s.mem (o + readInt s.mem o + 4) = readInt s.mem o := by
    have := htags _ hmem
    simp only [hFabs] at this
    have e : o + readInt s.mem o + 4 = o + 4 + readInt s.mem o := by ring
    rw [e]
    exact this
  have hleft : 0 < o → readInt s.mem (o - 4) < 0 := by
    intro ho
    exact linked_left_used s.mem _ _ _ hlink hadj htags _ hmem (by simp only; linarith) ho
  have hbyte : ∀ i, i < o + 4 ∨ o + readInt s.mem o + 4 ≤ i →
      mergedMem s.mem o n (readInt s.mem o) i = s.mem i :=
    fun i hi => mergedMem_byte s.mem o n i h0 hF hfoot hi
  have hstate : myfree (myalloc s n).1 (o + 4)
      = { MEMORY_SIZE := s.MEMORY_SIZE, mem := mergedMem s.mem o n (readInt s.mem o) } := by
    rw [myalloc_of_chosen s n o h0 hmax hc]
    exact myfree_splitMem s.mem s.MEMORY_SIZE o n h0 hF hb.2 hleft
  rw [hstate]
  have hhead : ∀ b ∈ blocks s,
      readInt (mergedMem s.mem o n (readInt s.mem o)) b.1 = readInt s.mem b.1 := by
    intro b hb'
    apply readInt_congr
    intro i hi1 hi2
    apply hbyte
    rcases linked_disjoint _ _ _ hlink b hb' _ hmem with e | e | e
    · subst e; left; simp only at hi2 ⊢; linarith
    · have := abs_nonneg b.2
      left; simp only at e; linarith
    · simp only [hFabs] at e
      right; linarith
  refine ⟨?_, hmem, by linarith, ?_, ?_, ?_, ?_, rfl⟩
  · unfold blocks
    exact walk_congr _ _ _ _ _ hhead
  · exact hhead _ hmem
  · refine Eq.trans ?_ hfoot
    apply readInt_congr
    intro i hi1 _
    exact hbyte i (Or.inr hi1)
  · intro b hb' hne
    constructor
    · rw [hsnd b hb']
      exact hhead b hb'
    · refine Eq.trans ?_ (htags b hb')
      apply readInt_congr
      intro i hi1 hi2
      apply hbyte
      rcases linked_disjoint _ _ _ hlink b hb' _ hmem with e | e | e
      · subst e; exact absurd rfl hne
      · left; simp only at e; linarith
      · simp only [hFabs] at e
        have := abs_nonneg b.2
        right; linarith
  · intro i hi
    apply hbyte
    rcases hi with hi | hi
    · left; linarith
    · right; linarith

/-- In `samplePool`, `myalloc(4)` returns 76 and `myfree(76)` restores the blocks. -/
theorem myfree_myalloc_roundtrip_witness :
    blocks (myfree (myalloc samplePool 4).1 76) = blocks samplePool :=
  (myfree_myalloc_roundtrip samplePool 4 76 (by decide!) (by decide) (by decide)
    (by decide!)).1

/-! ### Zero-size requests -/

/-- C3 (failing input).  On a fresh pool of 32 bytes, which is well formed,
`myalloc(0)` succeeds and returns offset 4, and the header it wrote at offset 0 is
`0 * -1 = 0`: not negative, so the block it handed out reads as free. -/
theorem myalloc_zero_header :
    WellFormed (init_myalloc 32 zeroMem) ∧
    (myalloc (init_myalloc 32 zeroMem) 0).2 = some 4 ∧
    readInt (myalloc (init_myalloc 32 zeroMem) 0).1.mem (4 - 4) = 0 ∧
    blocks (myalloc (init_myalloc 32 zeroMem) 0).1 = [(0, 0), (8, 16)] := by
  decide!

/-- C1 (failing input).  Pool of 64 bytes; `myalloc(4)`, `myalloc(4)`, `myalloc(0)`
return 4, 16 and 28; then `myfree(16)` and `myfree(28)`, both on live addresses.
The forward walk then finds a block at 12 with header 52 and stops at 72, past
`MEMORY_SIZE = 64`. -/
theorem tiling_lost_after_zero_size :
    (run 64 zeroMem [.alloc 4, .alloc 4, .alloc 0, .free 16]).map
        (fun σ => (σ.live, blocks σ.st, cursor σ.st))
      = some ([(28, 0), (4, 4)], [(0, -4), (12, 12), (32, 24)], 64) ∧
    (run 64 zeroMem [.alloc 4, .alloc 4, .alloc 0, .free 16, .free 28]).map
        (fun σ => (σ.live, blocks σ.st, cursor σ.st))
      = some ([(4, 4)], [(0, -4), (12, 52)], 72) := by
  decide!

/-- C2 (failing input).  Pool of 64 bytes, all bytes zero; after `myalloc` of 4, 4,
0 and 16 bytes (returning 4, 16, 28 and 36), `myfree(16)` and `myfree(28)`, the
allocation at 36 (16 bytes, payload `[36, 52)`) is still live.  The next call
`myalloc(4)` scans a header at offset 40 and stores the word 8 at offset 36, both
inside that payload: byte 36 changes from 0 to 8. -/
theorem live_payload_overwritten :
    (run 64 zeroMem [.alloc 4, .alloc 4, .alloc 0, .alloc 16, .free 16, .free 28]).map
        (fun σ => (σ.live, blocks σ.st, σ.st.mem 36))
      = some ([(36, 16), (4, 4)], [(0, -4), (12, 20), (40, 0), (48, 0), (56, 0)], 0) ∧
    (run 64 zeroMem [.alloc 4, .alloc 4, .alloc 0, .alloc 16, .free 16, .free 28, .alloc 4]).map
        (fun σ => (σ.live, σ.st.mem 36))
      = some ([(16, 4), (36, 16), (4, 4)], 8) := by
  decide!

/-- C4 (failing input).  Pool of 64 bytes, all bytes zero; `myalloc` of 4, 4, 0 and
16 bytes (returning 4, 16, 28 and 36), then `myfree(16)` and `myfree(28)`.  The
forward walk finds a block at 12 with header 20 whose footer word (at 36) is 0, and
a block at 48 with header 0 whose footer word (at 52) is -16. -/
theorem footer_differs_after_zero_size :
    (run 64 zeroMem [.alloc 4, .alloc 4, .alloc 0, .alloc 16, .free 16, .free 28]).map
        (fun σ => (blocks σ.st).map (fun b => (b.1, b.2, readInt σ.st.mem (b.1 + 4 + |b.2|))))
      = some [(0, -4, -4), (12, 20, 0), (40, 0, 0), (48, 0, -16), (56, 0, 0)] := by
  decide!

/-- C5 (failing input).  Pool of 64 bytes; `myalloc` of 4, 4, 4 and 0 bytes
(returning 4, 16, 28 and 40), then `myfree(16)`.  When `myfree` has completed, the
consecutive blocks at 36 (header 0, the live allocation of 0 bytes) and at 44
(header 12, free) both have a non-negative header. -/
theorem adjacent_free_after_zero_size :
    (run 64 zeroMem [.alloc 4, .alloc 4, .alloc 4, .alloc 0, .free 16]).map
        (fun σ => (σ.live, blocks σ.st, adjacentFree (blocks σ.st)))
      = some ([(40, 0), (28, 4), (4, 4)],
          [(0, -4), (12, 4), (24, -4), (36, 0), (44, 12)], true) := by
  decide!

/-! ### Layouts: the blocks of a pool as a list -/

theorem walk_ge (m : Mem) (M : Int) (n : Nat) (pos : Int) (h : M ≤ pos) :
    walk m M n pos = [] ∧ walkEnd m M n pos = pos := by
  cases n with
  | zero => exact ⟨rfl, rfl⟩
  | succ n =>
    have hlt : ¬ pos < M := not_lt.mpr h
    constructor
    · unfold walk; rw [if_neg hlt]
    · unfold walkEnd; rw [if_neg hlt]

theorem linked_length : ∀ (l : List (Int × Int)) (a b : Int), Linked a l b →
    a + 8 * (l.length : Int) ≤ b
  | [], a, b, h => by simp [Linked] at h; simp [h]
  | x :: rest, a, b, h => by
    obtain ⟨_, h2⟩ := h
    have h3 := linked_length rest _ _ h2
    have h4 := abs_nonneg x.2
    simp only [List.length_cons]
    push_cast
    linarith

theorem walk_of_linked (m : Mem) (M : Int) : ∀ (l : List (Int × Int)) (n : Nat) (a : Int),
    Linked a l M → (∀ x ∈ l, readInt m x.1 = x.2) → l.length ≤ n →
    walk m M n a = l ∧ walkEnd m M n a = M
  | [], n, a, h, _, _ => by
    simp only [Linked] at h
    subst h
    exact walk_ge m a n a le_rfl
  | x :: rest, n, a, h, hr, hn => by
    obtain ⟨h1, h2⟩ := h
    cases n with
    | zero => simp at hn
    | succ n =>
      have hx := hr x (List.mem_cons_self _ _)
      rw [h1] at hx
      have hlt : a < M := by
        have := linked_le rest _ _ h2
        have := abs_nonneg x.2
        linarith
      have ih := walk_of_linked m M rest n (a + |x.2| + 8) h2
        (fun y hy => hr y (List.mem_cons_of_mem _ hy)) (by simpa using hn)
      have hxe : (a, x.2) = x := by rw [← h1]
      constructor
      · unfold walk
        rw [if_pos hlt, hx, ih.1, hxe]
      · unfold walkEnd
        rw [if_pos hlt, hx, ih.2]

theorem layout_blocks (m : Mem) (M : Int) (l : List (Int × Int)) (h : Layout m M l) :
    blocks { MEMORY_SIZE := M, mem := m } = l ∧ cursor { MEMORY_SIZE := M, mem := m } = M := by
  obtain ⟨h1, h2⟩ := h
  have hlen := linked_length l 0 M h1
  have hn : l.length ≤ M.toNat := by omega
  exact walk_of_linked m M l M.toNat 0 h1 (fun x hx => (h2 x hx).1) hn

theorem layout_of_wellFormed (s : Alloc) (h : WellFormed s) :
    Layout s.mem s.MEMORY_SIZE (blocks s) := by
  obtain ⟨_, htiled, htags, _⟩ := h
  constructor
  · have := walk_linked s.mem s.MEMORY_SIZE s.MEMORY_SIZE.toNat 0
    unfold Tiled cursor at htiled
    rw [htiled] at this
    exact this
  · intro x hx
    exact ⟨(walk_snd _ _ _ _ x hx).symm, htags x hx⟩

theorem adjacentFree_iff : ∀ (l : List (Int × Int)),
    adjacentFree l = false ↔ List.Chain' NotBothFree l
  | [] => by simp [adjacentFree]
  | [x] => by simp [adjacentFree]
  | x :: y :: rest => by
    have ih := adjacentFree_iff (y :: rest)
    rw [List.chain'_cons, ← ih]
    simp only [adjacentFree, Bool.or_eq_false_iff, Bool.and_eq_false_iff,
      decide_eq_false_iff_not, NotBothFree, not_and_or, not_le]

theorem wellFormed_of_layout (m : Mem) (M : Int) (l : List (Int × Int)) (hM : M ≤ INT_MAX)
    (h : Layout m M l) (hadj : List.Chain' NotBothFree l) :
    WellFormed { MEMORY_SIZE := M, mem := m } := by
  obtain ⟨hb, hc⟩ := layout_blocks m M l h
  refine ⟨hM, hc, ?_, ?_⟩
  · unfold TagsAgree
    rw [hb]
    intro x hx
    exact (h.2 x hx).2
  · unfold NoAdjacentFree
    rw [hb]
    exact (adjacentFree_iff l).mpr hadj

theorem linked_append : ∀ (l1 l2 : List (Int × Int)) (a b : Int),
    Linked a (l1 ++ l2) b ↔ ∃ c, Linked a l1 c ∧ Linked c l2 b
  | [], l2, a, b => by
    simp only [List.nil_append, Linked]
    constructor
    · intro h; exact ⟨a, rfl, h⟩
    · rintro ⟨c, rfl, h⟩; exact h
  | x :: rest, l2, a, b => by
    have ih := linked_append rest l2 (a + |x.2| + 8) b
    show x.1 = a ∧ Linked (a + |x.2| + 8) (rest ++ l2) b ↔
      ∃ c, (x.1 = a ∧ Linked (a + |x.2| + 8) rest c) ∧ Linked c l2 b
    rw [ih]
    constructor
    · rintro ⟨h1, c, h2, h3⟩; exact ⟨c, ⟨h1, h2⟩, h3⟩
    · rintro ⟨c, ⟨h1, h2⟩, h3⟩; exact ⟨h1, c, h2, h3⟩

theorem linked_split : ∀ (l : List (Int × Int)) (a b : Int), Linked a l b → ∀ x ∈ l,
    ∃ pre post, l = pre ++ x :: post ∧ Linked a pre x.1 ∧ Linked (x.1 + |x.2| + 8) post b
  | [], _, _, _ => by simp
  | y :: rest, a, b, h => by
    obtain ⟨h1, h2⟩ := h
    intro x hx
    rcases List.mem_cons.mp hx with e | hx'
    · subst e
      refine ⟨[], rest, rfl, ?_, ?_⟩
      · simp [Linked, h1]
      · rw [h1]; exact h2
    · obtain ⟨pre, post, e, g1, g2⟩ := linked_split rest _ _ h2 x hx'
      refine ⟨y :: pre, post, by rw [e]; rfl, ⟨h1, g1⟩, g2⟩

theorem tagged_frame (m m' : Mem) (l : List (Int × Int)) (a b : Int) (hl : Linked a l b)
    (ht : Tagged m l) (hf : ∀ i, a ≤ i → i < b → m' i = m i) : Tagged m' l := by
  intro x hx
  obtain ⟨g1, g2⟩ := ht x hx
  obtain ⟨b1, b2⟩ := linked_mem l a b hl x hx
  have hab := abs_nonneg x.2
  constructor
  · refine Eq.trans ?_ g1
    apply readInt_congr
    intro i hi1 hi2
    exact hf i (by linarith) (by linarith)
  · refine Eq.trans ?_ g2
    apply readInt_congr
    intro i hi1 hi2
    exact hf i (by linarith) (by linarith)

theorem tagged_append (m : Mem) (l1 l2 : List (Int × Int)) :
    Tagged m (l1 ++ l2) ↔ Tagged m l1 ∧ Tagged m l2 := by
  unfold Tagged
  constructor
  · intro h
    exact ⟨fun x hx => h x (List.mem_append_left _ hx),
      fun x hx => h x (List.mem_append_right _ hx)⟩
  · rintro ⟨h1, h2⟩ x hx
    rcases List.mem_append.mp hx with hx | hx
    · exact h1 x hx
    · exact h2 x hx

/-- Replacing the blocks between offsets `A` and `E` of a layout: when memory changes
only inside `[A, E)` and the new blocks `mid` fill `[A, E)` with their tags, the pool
consists of the old blocks before `A`, the new ones, and the old blocks from `E` on. -/
theorem layout_replace (m m' : Mem) (M A E : Int) (pre mid post : List (Int × Int))
    (hpre : Linked 0 pre A) (hpost : Linked E post M)
    (tpre : Tagged m pre) (tpost : Tagged m post)
    (hf : ∀ i, i < A ∨ E ≤ i → m' i = m i)
    (hmid : Linked A mid E) (tmid : Tagged m' mid) :
    Layout m' M (pre ++ (mid ++ post)) := by
  constructor
  · rw [linked_append]
    refine ⟨A, hpre, ?_⟩
    rw [linked_append]
    exact ⟨E, hmid, hpost⟩
  · rw [tagged_append, tagged_append]
    refine ⟨tagged_frame m m' pre 0 A hpre tpre (fun i _ hi => hf i (Or.inl hi)), tmid,
      tagged_frame m m' post E M hpost tpost (fun i hi _ => hf i (Or.inr hi))⟩

/-! ### `init_myalloc` -/

theorem init_myalloc_eq (M : Int) (buf : Mem) :
    init_myalloc M buf
      = { MEMORY_SIZE := M, mem := writeInt (writeInt buf 0 (M - 8)) (M - 4) (M - 8) } := by
  unfold init_myalloc
  have e1 : M - 2 * 4 = M - 8 := by ring
  have e2 : (0 : Int) + M - 4 = M - 4 := by ring
  simp only [e1, e2]

theorem init_layout (M : Int) (buf : Mem) (h8 : 8 ≤ M) (hmax : M ≤ INT_MAX) :
    Layout (init_myalloc M buf).mem M [(0, M - 8)] := by
  rw [init_myalloc_eq]
  unfold INT_MAX at hmax
  have h0 : (0 : Int) ≤ M - 8 := by linarith
  constructor
  · simp only [Linked, abs_of_nonneg h0, true_and]
    ring
  · intro x hx
    simp only [List.mem_singleton] at hx
    subst hx
    simp only [abs_of_nonneg h0]
    constructor
    · rw [readInt_writeInt_lo _ _ _ _ (by linarith)]
      exact readInt_writeInt_val _ _ _ (by linarith) (by linarith)
    · have e : (0 : Int) + 4 + (M - 8) = M - 4 := by ring
      rw [e]
      exact readInt_writeInt_val _ _ _ (by linarith) (by linarith)

/-- C12.  For every `MEMORY_SIZE` from 8 up (an `int`), `init_myalloc` leaves the
words at offset 0 and at offset `MEMORY_SIZE - 4` both equal to `MEMORY_SIZE - 8`,
and the forward walk finds exactly one block, at offset 0, free (non-negative
header), and stops at `MEMORY_SIZE`. -/
theorem init_myalloc_single_block (M : Int) (buf : Mem) (h8 : 8 ≤ M) (hmax : M ≤ INT_MAX) :
    (init_myalloc M buf).MEMORY_SIZE = M ∧
    readInt (init_myalloc M buf).mem 0 = M - 8 ∧
    readInt (init_myalloc M buf).mem (M - 4) = M - 8 ∧
    blocks (init_myalloc M buf) = [(0, M - 8)] ∧
    0 ≤ M - 8 ∧
    cursor (init_myalloc M buf) = M := by
  have hl := init_layout M buf h8 hmax
  have hs : init_myalloc M buf
      = { MEMORY_SIZE := M, mem := (init_myalloc M buf).mem } := by
    rw [init_myalloc_eq]
  obtain ⟨hb, hc⟩ := layout_blocks _ _ _ hl
  rw [← hs] at hb hc
  have h0 : (0 : Int) ≤ M - 8 := by linarith
  have ht := hl.2 (0, M - 8) (List.mem_singleton.mpr rfl)
  simp only [abs_of_nonneg h0] at ht
  have e : (0 : Int) + 4 + (M - 8) = M - 4 := by ring
  rw [e] at ht
  refine ⟨?_, ht.1, ht.2, hb, h0, hc⟩
  rw [init_myalloc_eq]

/-- A pool of 108 bytes starts as one free block of payload 100. -/
theorem init_myalloc_single_block_witness :
    blocks (init_myalloc 108 zeroMem) = [(0, 100)] :=
  (init_myalloc_single_block 108 zeroMem (by decide) (by decide)).2.2.2.1

/-! ### The frame of `myalloc` -/

/-- C19 (allocation frame).  When `myalloc(size)` succeeds on the block with header
at `o` and payload `F`, every byte outside the span `[o, o + F + 8)` is unchanged, and
so is every byte of the span outside the four tag words at `o`, `o + size + 4`,
`o + size + 8` and `o + F + 4`; these four words lie inside the span. -/
theorem myalloc_frame (s : Alloc) (size o : Int) (h0 : 0 ≤ size)
    (hmax : size + 8 ≤ INT_MAX) (hc : chosen s size = some o) :
    (myalloc s size).2 = some (o + 4) ∧
    (∀ i, i < o ∨ o + readInt s.mem o + 8 ≤ i → (myalloc s size).1.mem i = s.mem i) ∧
    (∀ i, ¬ (o ≤ i ∧ i < o + 4) → ¬ (o + size + 4 ≤ i ∧ i < o + size + 4 + 4) →
      ¬ (o + size + 8 ≤ i ∧ i < o + size + 8 + 4) →
      ¬ (o + readInt s.mem o + 4 ≤ i ∧ i < o + readInt s.mem o + 4 + 4) →
      (myalloc s size).1.mem i = s.mem i) ∧
    o + size + 8 + 4 ≤ o + readInt s.mem o + 4 := by
  have hF := chosen_header_ge s size o h0 hmax hc
  rw [myalloc_of_chosen s size o h0 hmax hc]
  refine ⟨rfl, ?_, ?_, by linarith⟩
  · intro i hi
    apply splitMem_byte
    · rcases hi with hi | hi
      · left; exact hi
      · right; linarith
    · rcases hi with hi | hi
      · left; linarith
      · right; linarith
    · rcases hi with hi | hi
      · left; linarith
      · right; linarith
  · intro i h1 h2 h3 h4
    rw [not_and_or, not_le, not_lt] at h1 h2 h3 h4
    apply splitMem_byte
    · exact h1
    · rcases h2 with h2 | h2
      · left; exact h2
      · rcases h3 with h3 | h3
        · exfalso; linarith
        · right; linarith
    · rcases h4 with h4 | h4
      · left; exact h4
      · right; linarith

/-- On a fresh pool of 108 bytes `myalloc(16)` carves the block at 0 (payload 100)
and returns 4; byte 50, inside the span and outside the four tag words, and byte
200, outside the span, keep their contents. -/
theorem myalloc_frame_witness :
    (myalloc (init_myalloc 108 zeroMem) 16).2 = some (0 + 4) ∧
    (myalloc (init_myalloc 108 zeroMem) 16).1.mem 50 = (init_myalloc 108 zeroMem).mem 50 ∧
    (myalloc (init_myalloc 108 zeroMem) 16).1.mem 200 = (init_myalloc 108 zeroMem).mem 200 :=
  ⟨(myalloc_frame (init_myalloc 108 zeroMem) 16 0 (by decide) (by decide) (by decide!)).1,
    (myalloc_frame (init_myalloc 108 zeroMem) 16 0 (by decide) (by decide) (by decide!)).2.2.1
      50 (by decide) (by decide) (by decide) (by decide!),
    (myalloc_frame (init_myalloc 108 zeroMem) 16 0 (by decide) (by decide) (by decide!)).2.1
      200 (Or.inr (by decide!))⟩

/-! ### The three steps of `myfree` -/

theorem myfree_steps (s : Alloc) (oldptr : Int) :
    myfree s oldptr =
      { MEMORY_SIZE := s.MEMORY_SIZE,
        mem := leftStep (rightStep (markStep s.mem oldptr) s.MEMORY_SIZE oldptr) oldptr } :=
  rfl

theorem markStep_eq (m : Mem) (p sz : Int) (h : readInt m (p - 4) = -sz) (h0 : 0 ≤ sz)
    (hr : sz ≤ 2147483647) :
    markStep m p = writeInt (writeInt m (p - 4) sz) (p + sz) sz := by
  unfold markStep
  simp only
  rw [h, abs_neg, abs_of_nonneg h0,
    readInt_writeInt_val _ _ _ (by linarith) (by linarith)]

theorem markStep_reads (m : Mem) (p sz : Int) (h : readInt m (p - 4) = -sz) (h0 : 0 ≤ sz)
    (hr : sz ≤ 2147483647) :
    readInt (markStep m p) (p - 4) = sz ∧ readInt (markStep m p) (p + sz) = sz ∧
    ∀ i, i < p - 4 ∨ p + sz + 4 ≤ i → markStep m p i = m i := by
  rw [markStep_eq m p sz h h0 hr]
  refine ⟨?_, ?_, ?_⟩
  · rw [readInt_writeInt_lo _ _ _ _ (by linarith)]
    exact readInt_writeInt_val _ _ _ (by linarith) (by linarith)
  · exact readInt_writeInt_val _ _ _ (by linarith) (by linarith)
  · intro i hi
    rw [writeInt_byte_ne, writeInt_byte_ne]
    · rcases hi with hi | hi
      · left; exact hi
      · right; linarith
    · rcases hi with hi | hi
      · left; linarith
      · right; linarith

theorem rightStep_skip (m2 : Mem) (M p sz : Int) (h : readInt m2 (p - 4) = sz) (h0 : 0 ≤ sz)
    (hc : readInt m2 (p + sz + 4) < 0 ∨ p + sz + 4 = M) :
    rightStep m2 M p = m2 := by
  unfold rightStep
  rw [h, abs_of_nonneg h0]
  apply if_neg
  rintro ⟨g1, g2⟩
  rcases hc with hc | hc
  · linarith
  · exact g2 hc

theorem rightStep_merge (m2 : Mem) (M p sz R : Int) (h : readInt m2 (p - 4) = sz)
    (h0 : 0 ≤ sz) (hR : readInt m2 (p + sz + 4) = R) (hR0 : 0 ≤ R) (hne : p + sz + 4 ≠ M)
    (hr : sz + R + 8 ≤ 2147483647) :
    rightStep m2 M p
      = writeInt (writeInt (writeInt m2 (p - 4) (sz + R)) (p - 4) (sz + R + 8))
          (p + (sz + R + 8)) (sz + R + 8) := by
  unfold rightStep
  rw [h, abs_of_nonneg h0, hR]
  rw [if_pos ⟨hR0, hne⟩]
  simp only
  rw [readInt_writeInt_val _ _ _ (by linarith) (by linarith),
    readInt_writeInt_val _ _ _ (by linarith) (by linarith)]

theorem leftStep_skip (m3 : Mem) (p : Int) (hc : readInt m3 (p - 8) < 0 ∨ p - 8 ≤ 0) :
    leftStep m3 p = m3 := by
  unfold leftStep
  apply if_neg
  rintro ⟨g1, g2⟩
  rcases hc with hc | hc
  · linarith
  · linarith

theorem leftStep_merge (m3 : Mem) (p t L : Int) (ht : readInt m3 (p - 4) = t) (ht0 : 0 ≤ t)
    (hL : readInt m3 (p - 8) = L) (hL0 : 0 ≤ L) (hp : p - 8 > 0)
    (hLh : readInt m3 (p - L - 12) = L) (hr : L + t + 8 ≤ 2147483647) :
    leftStep m3 p
      = writeInt (writeInt m3 (p - L - 12) (L + t + 8)) (p + t) (L + t + 8) := by
  unfold leftStep
  rw [hL, if_pos ⟨hL0, hp⟩]
  simp only
  rw [hLh, ht]
  have e : L + (t + 8) = L + t + 8 := by ring
  rw [e]
  rw [readInt_writeInt_hi _ _ _ (p - 4) (by linarith),
    readInt_writeInt_hi _ _ _ (p - 8) (by linarith), ht, hL,
    readInt_writeInt_val _ _ _ (by linarith) (by linarith)]

theorem readInt_frame (m m' : Mem) (a lo hi : Int)
    (hf : ∀ i, i < lo ∨ hi ≤ i → m' i = m i) (h : a + 4 ≤ lo ∨ hi ≤ a) :
    readInt m' a = readInt m a := by
  apply readInt_congr
  intro i h1 h2
  apply hf
  rcases h with h | h
  · left; linarith
  · right; linarith

theorem rightStep_merge_reads (m2 : Mem) (M p sz R : Int) (h : readInt m2 (p - 4) = sz)
    (h0 : 0 ≤ sz) (hR : readInt m2 (p + sz + 4) = R) (hR0 : 0 ≤ R) (hne : p + sz + 4 ≠ M)
    (hr : sz + R + 8 ≤ 2147483647) :
    readInt (rightStep m2 M p) (p - 4) = sz + R + 8 ∧
    readInt (rightStep m2 M p) (p + (sz + R + 8)) = sz + R + 8 ∧
    ∀ i, i < p - 4 ∨ p + (sz + R + 8) + 4 ≤ i → rightStep m2 M p i = m2 i := by
  rw [rightStep_merge m2 M p sz R h h0 hR hR0 hne hr]
  refine ⟨?_, ?_, ?_⟩
  · rw [readInt_writeInt_lo _ _ _ _ (by linarith)]
    exact readInt_writeInt_val _ _ _ (by linarith) (by linarith)
  · exact readInt_writeInt_val _ _ _ (by linarith) (by linarith)
  · intro i hi
    rw [writeInt_byte_ne, writeInt_byte_ne, writeInt_byte_ne]
    · rcases hi with hi | hi
      · left; exact hi
      · right; linarith
    · rcases hi with hi | hi
      · left; exact hi
      · right; linarith
    · rcases hi with hi | hi
      · left; linarith
      · right; linarith

theorem leftStep_merge_reads (m3 : Mem) (p t L : Int) (ht : readInt m3 (p - 4) = t)
    (ht0 : 0 ≤ t) (hL : readInt m3 (p - 8) = L) (hL0 : 0 ≤ L) (hp : p - 8 > 0)
    (hLh : readInt m3 (p - L - 12) = L) (hr : L + t + 8 ≤ 2147483647) :
    readInt (leftStep m3 p) (p - L - 12) = L + t + 8 ∧
    readInt (leftStep m3 p) (p + t) = L + t + 8 ∧
    ∀ i, (i < p - L - 12 ∨ p - L - 8 ≤ i) → (i < p + t ∨ p + t + 4 ≤ i) →
      leftStep m3 p i = m3 i := by
  rw [leftStep_merge m3 p t L ht ht0 hL hL0 hp hLh hr]
  refine ⟨?_, ?_, ?_⟩
  · rw [readInt_writeInt_lo _ _ _ _ (by linarith)]
    exact readInt_writeInt_val _ _ _ (by linarith) (by linarith)
  · exact readInt_writeInt_val _ _ _ (by linarith) (by linarith)
  · intro i h1 h2
    rw [writeInt_byte_ne, writeInt_byte_ne]
    · rcases h1 with h1 | h1
      · left; exact h1
      · right; linarith
    · exact h2

/-- The memory `myfree` leaves: the value of its three steps. -/
theorem myfree_mem (s : Alloc) (p : Int) :
    (myfree s p).mem = leftStep (rightStep (markStep s.mem p) s.MEMORY_SIZE p) p ∧
    (myfree s p).MEMORY_SIZE = s.MEMORY_SIZE := by
  rw [myfree_steps]
  exact ⟨rfl, rfl⟩

/-- `myfree` on a used block of payload `sz` whose neighbours are not merged. -/
theorem free_none_mem (m : Mem) (M p sz : Int) (h : readInt m (p - 4) = -sz) (h0 : 0 ≤ sz)
    (hr : sz ≤ 2147483647)
    (hright : readInt m (p + sz + 4) < 0 ∨ p + sz + 4 = M)
    (hleft : readInt m (p - 8) < 0 ∨ p - 8 ≤ 0) :
    readInt (leftStep (rightStep (markStep m p) M p) p) (p - 4) = sz ∧
    readInt (leftStep (rightStep (markStep m p) M p) p) (p + sz) = sz ∧
    ∀ i, i < p - 4 ∨ p + sz + 4 ≤ i →
      leftStep (rightStep (markStep m p) M p) p i = m i := by
  obtain ⟨a1, a2, a3⟩ := markStep_reads m p sz h h0 hr
  have b1 : readInt (markStep m p) (p + sz + 4) = readInt m (p + sz + 4) :=
    readInt_frame _ _ _ _ _ a3 (Or.inr le_rfl)
  have b2 : readInt (markStep m p) (p - 8) = readInt m (p - 8) :=
    readInt_frame _ _ _ _ _ a3 (Or.inl (by linarith))
  rw [rightStep_skip _ M p sz a1 h0 (by rw [b1]; exact hright),
    leftStep_skip _ p (by rw [b2]; exact hleft)]
  exact ⟨a1, a2, a3⟩

/-- `myfree` on a used block of payload `sz` merged with its free right neighbour
(payload `R`) only. -/
theorem free_right_mem (m : Mem) (M p sz R : Int) (h : readInt m (p - 4) = -sz)
    (h0 : 0 ≤ sz) (hR : readInt m (p + sz + 4) = R) (hR0 : 0 ≤ R) (hne : p + sz + 4 ≠ M)
    (hr : sz + R + 8 ≤ 2147483647)
    (hleft : readInt m (p - 8) < 0 ∨ p - 8 ≤ 0) :
    readInt (leftStep (rightStep (markStep m p) M p) p) (p - 4) = sz + R + 8 ∧
    readInt (leftStep (rightStep (markStep m p) M p) p) (p + sz + R + 8) = sz + R + 8 ∧
    ∀ i, i < p - 4 ∨ p + sz + R + 12 ≤ i →
      leftStep (rightStep (markStep m p) M p) p i = m i := by
  obtain ⟨a1, a2, a3⟩ := markStep_reads m p sz h h0 (by linarith)
  have b1 : readInt (markStep m p) (p + sz + 4) = R := by
    rw [readInt_frame _ _ _ _ _ a3 (Or.inr le_rfl), hR]
  have b2 : readInt (markStep m p) (p - 8) = readInt m (p - 8) :=
    readInt_frame _ _ _ _ _ a3 (Or.inl (by linarith))
  obtain ⟨c1, c2, c3⟩ := rightStep_merge_reads _ M p sz R a1 h0 b1 hR0 hne hr
  have d2 : readInt (rightStep (markStep m p) M p) (p - 8) = readInt m (p - 8) := by
    rw [readInt_frame _ _ _ _ _ c3 (Or.inl (by linarith)), b2]
  rw [leftStep_skip _ p (by rw [d2]; exact hleft)]
  have e : p + (sz + R + 8) = p + sz + R + 8 := by ring
  rw [e] at c2
  refine ⟨c1, c2, ?_⟩
  intro i hi
  rw [c3, a3]
  · rcases hi with hi | hi
    · left; exact hi
    · right; linarith
  · rcases hi with hi | hi
    · left; exact hi
    · right; linarith

/-- `myfree` on a used block of payload `sz` merged with its free left neighbour
(payload `L`) only. -/
theorem free_left_mem (m : Mem) (M p sz L : Int) (h : readInt m (p - 4) = -sz)
    (h0 : 0 ≤ sz)
    (hright : readInt m (p + sz + 4) < 0 ∨ p + sz + 4 = M)
    (hL : readInt m (p - 8) = L) (hL0 : 0 ≤ L) (hp : p - 8 > 0)
    (hLh : readInt m (p - L - 12) = L) (hr : L + sz + 8 ≤ 2147483647) :
    readInt (leftStep (rightStep (markStep m p) M p) p) (p - L - 12) = L + sz + 8 ∧
    readInt (leftStep (rightStep (markStep m p) M p) p) (p + sz) = L + sz + 8 ∧
    ∀ i, i < p - L - 12 ∨ p + sz + 4 ≤ i →
      leftStep (rightStep (markStep m p) M p) p i = m i := by
  obtain ⟨a1, a2, a3⟩ := markStep_reads m p sz h h0 (by linarith)
  have b1 : readInt (markStep m p) (p + sz + 4) = readInt m (p + sz + 4) :=
    readInt_frame _ _ _ _ _ a3 (Or.inr le_rfl)
  have b2 : readInt (markStep m p) (p - 8) = L := by
    rw [readInt_frame _ _ _ _ _ a3 (Or.inl (by linarith)), hL]
  have b3 : readInt (markStep m p) (p - L - 12) = L := by
    rw [readInt_frame _ _ _ _ _ a3 (Or.inl (by linarith)), hLh]
  rw [rightStep_skip _ M p sz a1 h0 (by rw [b1]; exact hright)]
  obtain ⟨c1, c2, c3⟩ := leftStep_merge_reads _ p sz L a1 h0 b2 hL0 hp b3 hr
  refine ⟨c1, c2, ?_⟩
  intro i hi
  rw [c3, a3]
  · rcases hi with hi | hi
    · left; linarith
    · right; exact hi
  · rcases hi with hi | hi
    · left; exact hi
    · right; linarith
  · rcases hi with hi | hi
    · left; linarith
    · right; exact hi

/-- `myfree` on a used block of payload `sz` merged with both its free neighbours
(payloads `L` on the left, `R` on the right). -/
theorem free_both_mem (m : Mem) (M p sz L R : Int) (h : readInt m (p - 4) = -sz)
    (h0 : 0 ≤ sz) (hR : readInt m (p + sz + 4) = R) (hR0 : 0 ≤ R) (hne : p + sz + 4 ≠ M)
    (hL : readInt m (p - 8) = L) (hL0 : 0 ≤ L) (hp : p - 8 > 0)
    (hLh : readInt m (p - L - 12) = L) (hr : L + sz + R + 16 ≤ 2147483647) :
    readInt (leftStep (rightStep (markStep m p) M p) p) (p - L - 12) = L + sz + R + 16 ∧
    readInt (leftStep (rightStep (markStep m p) M p) p) (p + sz + R + 8) = L + sz + R + 16 ∧
    ∀ i, i < p - L - 12 ∨ p + sz + R + 12 ≤ i →
      leftStep (rightStep (markStep m p) M p) p i = m i := by
  obtain ⟨a1, a2, a3⟩ := markStep_reads m p sz h h0 (by linarith)
  have b1 : readInt (markStep m p) (p + sz + 4) = R := by
    rw [readInt_frame _ _ _ _ _ a3 (Or.inr le_rfl), hR]
  obtain ⟨c1, c2, c3⟩ := rightStep_merge_reads _ M p sz R a1 h0 b1 hR0 hne (by linarith)
  have d2 : readInt (rightStep (markStep m p) M p) (p - 8) = L := by
    rw [readInt_frame _ _ _ _ _ c3 (Or.inl (by linarith)),
      readInt_frame _ _ _ _ _ a3 (Or.inl (by linarith)), hL]
  have d3 : readInt (rightStep (markStep m p) M p) (p - L - 12) = L := by
    rw [readInt_frame _ _ _ _ _ c3 (Or.inl (by linarith)),
      readInt_frame _ _ _ _ _ a3 (Or.inl (by linarith)), hLh]
  obtain ⟨f1, f2, f3⟩ := leftStep_merge_reads _ p (sz + R + 8) L c1 (by linarith) d2 hL0 hp d3
    (by linarith)
  have e1 : L + (sz + R + 8) + 8 = L + sz + R + 16 := by ring
  have e2 : p + (sz + R + 8) = p + sz + R + 8 := by ring
  rw [e1] at f1 f2
  rw [e2] at f2
  refine ⟨f1, f2, ?_⟩
  intro i hi
  rw [f3, c3, a3]
  · rcases hi with hi | hi
    · left; linarith
    · right; linarith
  · rcases hi with hi | hi
    · left; linarith
    · right; linarith
  · rcases hi with hi | hi
    · left; exact hi
    · right; linarith
  · rcases hi with hi | hi
    · left; linarith
    · right; linarith

/-! ### Neighbouring blocks in a layout -/

theorem linked_next : ∀ (l : List (Int × Int)) (a b : Int), Linked a l b → ∀ x ∈ l,
    x.1 = a → ∃ rest, l = x :: rest ∧ Linked (a + |x.2| + 8) rest b
  | [], _, _, _ => by simp
  | y :: rest, a, b, h => by
    obtain ⟨h1, h2⟩ := h
    intro x hx hxa
    rcases List.mem_cons.mp hx with e | hx'
    · subst e
      exact ⟨rest, rfl, h2⟩
    · exfalso
      have := (linked_mem rest _ _ h2 x hx').1
      have := abs_nonneg y.2
      linarith

theorem linked_mem_suffix (pre rest : List (Int × Int)) (a c : Int) (hpre : Linked a pre c)
    (x : Int × Int) (hx : x ∈ pre ++ rest) (hc : c ≤ x.1) : x ∈ rest := by
  rcases List.mem_append.mp hx with h | h
  · exfalso
    have := (linked_mem pre a c hpre x h).2
    have := abs_nonneg x.2
    linarith
  · exact h

/-- The block that starts where the block `x` of a layout ends is the next one in
the list. -/
theorem linked_succ (l : List (Int × Int)) (b : Int) (hl : Linked 0 l b)
    (x y : Int × Int) (hx : x ∈ l) (hy : y ∈ l) (hxy : x.1 + |x.2| + 8 = y.1) :
    ∃ pre post, l = pre ++ x :: y :: post ∧ Linked 0 pre x.1 ∧
      Linked (y.1 + |y.2| + 8) post b := by
  obtain ⟨pre, rest, e, h1, h2⟩ := linked_split l 0 b hl x hx
  have hy' : y ∈ rest := by
    rw [e] at hy
    have h3 : y ∈ x :: rest := linked_mem_suffix pre (x :: rest) 0 x.1 h1 y hy (by
      have := abs_nonneg x.2
      linarith)
    rcases List.mem_cons.mp h3 with e' | h4
    · exfalso
      have := abs_nonneg x.2
      rw [e'] at hxy
      linarith
    · exact h4
  obtain ⟨post, e2, h5⟩ := linked_next rest _ b h2 y hy' hxy.symm
  refine ⟨pre, post, by rw [e, e2], h1, ?_⟩
  rw [hxy] at h5
  exact h5

/-! ### Coalescing -/

/-- C11 (three-way coalescing).  In a well-formed pool where a used block of payload
`sz` (header at `o`) has a free left neighbour of payload `L` (header at `a`) and a
free right neighbour of payload `R` (header at `r`), `myfree(o + 4)` leaves a single
free block in place of the three: it starts at `a`, and its header (at `a`) and its
footer (at `r + R + 4`, the right neighbour's old footer) are both `L + sz + R + 16`. -/
theorem myfree_coalesce_both (s : Alloc) (a L o sz r R : Int) (hwf : WellFormed s)
    (hl : (a, L) ∈ blocks s) (hx : (o, -sz) ∈ blocks s) (hr : (r, R) ∈ blocks s)
    (hL0 : 0 ≤ L) (hsz : 0 < sz) (hR0 : 0 ≤ R)
    (hal : a + L + 8 = o) (har : o + sz + 8 = r) :
    readInt (myfree s (o + 4)).mem a = L + sz + R + 16 ∧
    readInt (myfree s (o + 4)).mem (r + R + 4) = L + sz + R + 16 ∧
    (myfree s (o + 4)).MEMORY_SIZE = s.MEMORY_SIZE ∧
    ∃ pre post, blocks s = pre ++ (a, L) :: (o, -sz) :: (r, R) :: post ∧
      blocks (myfree s (o + 4)) = pre ++ (a, L + sz + R + 16) :: post := by
  have hlay := layout_of_wellFormed s hwf
  have hM : s.MEMORY_SIZE ≤ 2147483647 := hwf.1
  obtain ⟨hlink, htag⟩ := hlay
  have aL : |L| = L := abs_of_nonneg hL0
  have aR : |R| = R := abs_of_nonneg hR0
  have asz : |(-sz)| = sz := by rw [abs_neg, abs_of_nonneg (le_of_lt hsz)]
  obtain ⟨pre, rest, e1, g1, g2⟩ := linked_succ _ _ hlink (a, L) (o, -sz) hl hx
    (by simp only [aL]; exact hal)
  simp only [asz] at g2
  have hr' : (r, R) ∈ rest := by
    rw [e1] at hr
    have h3 := linked_mem_suffix pre _ 0 a g1 (r, R) hr (by simp only; linarith)
    rcases List.mem_cons.mp h3 with e' | h4
    · exfalso
      have := congrArg Prod.fst e'
      simp only at this
      linarith
    · rcases List.mem_cons.mp h4 with e' | h5
      · exfalso
        have := congrArg Prod.fst e'
        simp only at this
        linarith
      · exact h5
  obtain ⟨post, e2, g3⟩ := linked_next rest _ _ g2 (r, R) hr' (by simp only; linarith)
  simp only [aR] at g3
  rw [har] at g3
  have ta := htag _ hl
  have tx := htag _ hx
  have tr := htag _ hr
  simp only [aL] at ta
  simp only [aR] at tr
  have ha0 := linked_le pre 0 a g1
  have hend := linked_le post _ _ g3
  obtain ⟨mm, mM⟩ := myfree_mem s (o + 4)
  have p1 : readInt s.mem (o + 4 - 4) = -sz := by
    have e : o + 4 - 4 = o := by ring
    rw [e]; exact tx.1
  have p2 : readInt s.mem (o + 4 + sz + 4) = R := by
    have e : o + 4 + sz + 4 = r := by linarith
    rw [e]; exact tr.1
  have p3 : readInt s.mem (o + 4 - 8) = L := by
    have e : o + 4 - 8 = a + 4 + L := by linarith
    rw [e]; exact ta.2
  have p4 : readInt s.mem (o + 4 - L - 12) = L := by
    have e : o + 4 - L - 12 = a := by linarith
    rw [e]; exact ta.1
  obtain ⟨f1, f2, f3⟩ := free_both_mem s.mem s.MEMORY_SIZE (o + 4) sz L R p1 (le_of_lt hsz)
    p2 hR0 (by intro h; linarith) p3 hL0 (by linarith) p4 (by linarith)
  rw [← mm] at f1 f2 f3
  have ea : o + 4 - L - 12 = a := by linarith
  have er : o + 4 + sz + R + 8 = r + R + 4 := by linarith
  rw [ea] at f1 f3
  rw [er] at f2
  refine ⟨f1, f2, mM, pre, post, by rw [e1, e2], ?_⟩
  have hT0 : 0 ≤ L + sz + R + 16 := by linarith
  have hnew : Layout (myfree s (o + 4)).mem s.MEMORY_SIZE
      (pre ++ ([(a, L + sz + R + 16)] ++ post)) := by
    apply layout_replace s.mem _ _ a (r + R + 8) pre _ post g1 g3
    · exact fun y hy => htag y (by rw [e1]; exact List.mem_append_left _ hy)
    · intro y hy
      apply htag y
      rw [e1, e2]
      exact List.mem_append_right _ (List.mem_cons_of_mem _ (List.mem_cons_of_mem _
        (List.mem_cons_of_mem _ hy)))
    · intro i hi
      apply f3
      rcases hi with hi | hi
      · left; exact hi
      · right; linarith
    · simp only [Linked, abs_of_nonneg hT0, true_and]
      linarith
    · intro y hy
      simp only [List.mem_singleton] at hy
      subst hy
      simp only [abs_of_nonneg hT0]
      refine ⟨f1, ?_⟩
      have e : a + 4 + (L + sz + R + 16) = r + R + 4 := by linarith
      rw [e]
      exact f2
  have hb := (layout_blocks _ _ _ hnew).1
  have hs : myfree s (o + 4)
      = { MEMORY_SIZE := s.MEMORY_SIZE, mem := (myfree s (o + 4)).mem } := by
    rw [myfree_steps]
  rw [← hs] at hb
  rw [hb]
  rfl

/-- In `samplePool` the used block at 60 (payload 4) lies between the free blocks at
12 (payload 40) and 72 (payload 12): `myfree(64)` leaves one block of payload 72. -/
theorem myfree_coalesce_both_witness :
    readInt (myfree samplePool (60 + 4)).mem 12 = 40 + 4 + 12 + 16 ∧
    readInt (myfree samplePool (60 + 4)).mem (72 + 12 + 4) = 40 + 4 + 12 + 16 :=
  ⟨(myfree_coalesce_both samplePool 12 40 60 4 72 12 (by decide!) (by decide!) (by decide!)
      (by decide!) (by decide) (by decide) (by decide) (by decide) (by decide)).1,
    (myfree_coalesce_both samplePool 12 40 60 4 72 12 (by decide!) (by decide!) (by decide!)
      (by decide!) (by decide) (by decide) (by decide) (by decide) (by decide)).2.1⟩

/-- C16 (left-only coalescing).  In a well-formed pool where a used block of payload
`sz` (header at `o`) has a free left neighbour of payload `L` (header at `a`) and a
right neighbour that is used or absent, `myfree(o + 4)` leaves a free block at `a`
whose header (at `a`) and footer (at `o + sz + 4`, the footer of the released block)
are both `L + sz + 8`, and the right neighbour keeps its header and its footer. -/
theorem myfree_coalesce_left (s : Alloc) (a L o sz : Int) (hwf : WellFormed s)
    (hl : (a, L) ∈ blocks s) (hx : (o, -sz) ∈ blocks s)
    (hL0 : 0 ≤ L) (hsz : 0 < sz) (hal : a + L + 8 = o)
    (hright : o + sz + 8 = s.MEMORY_SIZE ∨ ∃ R, (o + sz + 8, R) ∈ blocks s ∧ R < 0) :
    readInt (myfree s (o + 4)).mem a = L + sz + 8 ∧
    readInt (myfree s (o + 4)).mem (o + sz + 4) = L + sz + 8 ∧
    (∀ R, (o + sz + 8, R) ∈ blocks s →
      readInt (myfree s (o + 4)).mem (o + sz + 8) = R ∧
      readInt (myfree s (o + 4)).mem (o + sz + 8 + 4 + |R|) = R) ∧
    (myfree s (o + 4)).MEMORY_SIZE = s.MEMORY_SIZE ∧
    ∃ pre post, blocks s = pre ++ (a, L) :: (o, -sz) :: post ∧
      blocks (myfree s (o + 4)) = pre ++ (a, L + sz + 8) :: post := by
  have hlay := layout_of_wellFormed s hwf
  have hM : s.MEMORY_SIZE ≤ 2147483647 := hwf.1
  obtain ⟨hlink, htag⟩ := hlay
  have aL : |L| = L := abs_of_nonneg hL0
  have asz : |(-sz)| = sz := by rw [abs_neg, abs_of_nonneg (le_of_lt hsz)]
  obtain ⟨pre, post, e1, g1, g2⟩ := linked_succ _ _ hlink (a, L) (o, -sz) hl hx
    (by simp only [aL]; exact hal)
  simp only [asz] at g2
  have ta := htag _ hl
  have tx := htag _ hx
  simp only [aL] at ta
  have ha0 := linked_le pre 0 a g1
  have hend := linked_le post _ _ g2
  obtain ⟨mm, mM⟩ := myfree_mem s (o + 4)
  have p1 : readInt s.mem (o + 4 - 4) = -sz := by
    have e : o + 4 - 4 = o := by ring
    rw [e]; exact tx.1
  have p2 : readInt s.mem (o + 4 + sz + 4) < 0 ∨ o + 4 + sz + 4 = s.MEMORY_SIZE := by
    have e : o + 4 + sz + 4 = o + sz + 8 := by ring
    rw [e]
    rcases hright with h | ⟨R, hR, hneg⟩
    · right; exact h
    · left
      rw [(htag _ hR).1]
      exact hneg
  have p3 : readInt s.mem (o + 4 - 8) = L := by
    have e : o + 4 - 8 = a + 4 + L := by linarith
    rw [e]; exact ta.2
  have p4 : readInt s.mem (o + 4 - L - 12) = L := by
    have e : o + 4 - L - 12 = a := by linarith
    rw [e]; exact ta.1
  obtain ⟨f1, f2, f3⟩ := free_left_mem s.mem s.MEMORY_SIZE (o + 4) sz L p1 (le_of_lt hsz)
    p2 p3 hL0 (by linarith) p4 (by linarith)
  rw [← mm] at f1 f2 f3
  have ea : o + 4 - L - 12 = a := by linarith
  have er : o + 4 + sz = o + sz + 4 := by ring
  have ee : o + 4 + sz + 4 = o + sz + 8 := by ring
  rw [ea] at f1 f3
  rw [er] at f2
  rw [ee] at f3
  have hT0 : 0 ≤ L + sz + 8 := by linarith
  have tpost : Tagged s.mem post := by
    intro y hy
    apply htag y
    rw [e1]
    exact List.mem_append_right _ (List.mem_cons_of_mem _ (List.mem_cons_of_mem _ hy))
  have hnew : Layout (myfree s (o + 4)).mem s.MEMORY_SIZE
      (pre ++ ([(a, L + sz + 8)] ++ post)) := by
    apply layout_replace s.mem _ _ a (o + sz + 8) pre _ post g1 g2
    · exact fun y hy => htag y (by rw [e1]; exact List.mem_append_left _ hy)
    · exact tpost
    · exact f3
    · simp only [Linked, abs_of_nonneg hT0, true_and]
      linarith
    · intro y hy
      simp only [List.mem_singleton] at hy
      subst hy
      simp only [abs_of_nonneg hT0]
      refine ⟨f1, ?_⟩
      have e : a + 4 + (L + sz + 8) = o + sz + 4 := by linarith
      rw [e]
      exact f2
  refine ⟨f1, f2, ?_, mM, pre, post, e1, ?_⟩
  · intro R hR
    have hR' : (o + sz + 8, R) ∈ post := by
      rw [e1] at hR
      have h3 := linked_mem_suffix pre _ 0 a g1 _ hR (by simp only; linarith)
      rcases List.mem_cons.mp h3 with e' | h4
      · exfalso
        have := congrArg Prod.fst e'
        simp only at this
        linarith
      · rcases List.mem_cons.mp h4 with e' | h5
        · exfalso
          have := congrArg Prod.fst e'
          simp only at this
          linarith
        · exact h5
    have := (tagged_frame s.mem (myfree s (o + 4)).mem post _ _ g2 tpost
      (fun i hi _ => f3 i (Or.inr hi))) _ hR'
    exact this
  · have hb := (layout_blocks _ _ _ hnew).1
    have hs : myfree s (o + 4)
        = { MEMORY_SIZE := s.MEMORY_SIZE, mem := (myfree s (o + 4)).mem } := by
      rw [myfree_steps]
    rw [← hs] at hb
    rw [hb]
    rfl

/-- In `leftPool` the used block at 24 (payload 4) has the free block at 12 (payload
4) on its left and the used block at 36 on its right: `myfree(28)` leaves a free block
of payload 16 at 12 and does not touch the block at 36. -/
theorem myfree_coalesce_left_witness :
    blocks leftPool = [(0, -4), (12, 4), (24, -4), (36, -4), (48, 8)] ∧
    readInt (myfree leftPool (24 + 4)).mem 12 = 4 + 4 + 8 ∧
    readInt (myfree leftPool (24 + 4)).mem (24 + 4 + 4) = 4 + 4 + 8 :=
  ⟨by decide!,
    (myfree_coalesce_left leftPool 12 4 24 4 (by decide!) (by decide!) (by decide!)
      (by decide) (by decide) (by decide) (Or.inr ⟨-4, by decide!, by decide⟩)).1,
    (myfree_coalesce_left leftPool 12 4 24 4 (by decide!) (by decide!) (by decide!)
      (by decide) (by decide) (by decide) (Or.inr ⟨-4, by decide!, by decide⟩)).2.1⟩

/-! ### Best fit on examples -/

/-- C15 (counterexample).  `fitPool` is well formed and its free blocks have
payload 40, 12 and 25, in that order (at 12, 72 and 104), separated by used
blocks; `myalloc(10)` returns 108: the allocation is carved from the block of
payload 25 at 104, not from the block of payload 12 at 72. -/
theorem example_block_12_not_chosen :
    WellFormed fitPool ∧
    blocks fitPool = [(0, -4), (12, 40), (60, -4), (72, 12), (92, -4), (104, 25)] ∧
    chosen fitPool 10 = some 104 ∧
    (myalloc fitPool 10).2 = some 108 ∧
    ¬ chosen fitPool 10 = some 72 := by
  decide!

/-- C15 (amended).  In every pool whose free blocks have payload 40, 12 and 25, in
that order, `myalloc(10)` needs a header of at least `10 + 8 = 18` and carves the
allocation from the block of payload 25 (the smallest that fits), not from the block
of payload 12 and not from the block of payload 40. -/
theorem best_fit_example (s : Alloc) (a b c : Int)
    (hfree : (blocks s).filter (fun x => decide (0 ≤ x.2)) = [(a, 40), (b, 12), (c, 25)]) :
    chosen s 10 = some c ∧ (myalloc s 10).2 = some (c + 4) := by
  have hin : ∀ x, x ∈ blocks s → 0 ≤ x.2 → x = (a, 40) ∨ x = (b, 12) ∨ x = (c, 25) := by
    intro x hx h0
    have : x ∈ (blocks s).filter (fun x => decide (0 ≤ x.2)) := by
      rw [List.mem_filter]
      exact ⟨hx, by simpa using h0⟩
    rw [hfree] at this
    simpa using this
  have hc25 : (c, (25 : Int)) ∈ blocks s := by
    have : (c, (25 : Int)) ∈ (blocks s).filter (fun x => decide (0 ≤ x.2)) := by
      rw [hfree]; simp
    exact (List.mem_filter.mp this).1
  have hw : wrap32 (10 + 8) = 18 := wrap32_of_range _ (by norm_num) (by norm_num)
  have hc : chosen s 10 = some c := by
    cases hch : chosen s 10 with
    | none =>
      exfalso
      have := (chosen_eq_none_iff s 10).mp hch _ hc25
      rw [hw] at this
      simp only at this
      linarith
    | some o =>
      obtain ⟨g1, g2, g3⟩ := chosen_eq_some s 10 o hch
      rw [hw] at g2 g3
      have g4 := g3 _ hc25 (by norm_num)
      simp only at g4
      rcases hin _ g1 (by simp only; linarith) with e | e | e
      · have := congrArg Prod.snd e
        simp only at this
        linarith
      · have := congrArg Prod.snd e
        simp only at this
        linarith
      · have := congrArg Prod.fst e
        simp only at this
        rw [this]
  exact ⟨hc, (myalloc_of_chosen s 10 c (by norm_num) (by decide) hc ▸ rfl)⟩

/-- In `fitPool`, `myalloc(10)` returns 108, inside the block of payload 25 at 104. -/
theorem best_fit_example_witness : (myalloc fitPool 10).2 = some (104 + 4) :=
  (best_fit_example fitPool 12 72 104 (by decide!)).2

/-- C14 (failing input).  `tiePool` is well formed and its two free blocks, at 12
and at 44, both have payload 12, the smallest payload that fits a request of 4
bytes.  `myalloc(4)` returns 48: it carves the allocation from the block at 44, the
later of the two, because the scan replaces its candidate on `<=`. -/
theorem tie_goes_to_last :
    WellFormed tiePool ∧
    blocks tiePool = [(0, -4), (12, 12), (32, -4), (44, 12)] ∧
    chosen tiePool 4 = some 44 ∧
    (myalloc tiePool 4).2 = some 48 := by
  decide!

/-! ### The accesses of `myfree` -/

theorem myfreeLog_fst (s : Alloc) (oldptr : Int) :
    (myfreeLog s oldptr).1 = myfree s oldptr := by
  unfold myfreeLog myfree
  simp only
  split_ifs <;> rfl

/-- C20 (failing input).  On a fresh pool of 20 bytes `myalloc(4)` returns 4, the
address of the first block of the pool, and the pool is well formed.  `myfree(4)`
then reads the word at offset `4 - 8 = -4`, in front of the pool: the test
`*(int*)(oldptr - 8) >= 0` comes before the test `(oldptr - 8) > mem`. -/
theorem myfree_reads_before_pool :
    (myalloc (init_myalloc 20 zeroMem) 4).2 = some 4 ∧
    WellFormed (myalloc (init_myalloc 20 zeroMem) 4).1 ∧
    blocks (myalloc (init_myalloc 20 zeroMem) 4).1 = [(0, -4), (12, 0)] ∧
    Access.read (-4) ∈ (myfreeLog (myalloc (init_myalloc 20 zeroMem) 4).1 4).2 ∧
    ¬ inPool (myalloc (init_myalloc 20 zeroMem) 4).1 (-4) := by
  decide!

/-- The same read in front of the pool has its mirror image behind it: in a pool of
12 bytes that is one used block of payload 4, `myfree(4)` reads the word at offset
12 = `MEMORY_SIZE`. -/
theorem myfree_reads_after_pool :
    blocks { MEMORY_SIZE := 12, mem := writeInt (writeInt zeroMem 0 (-4)) 8 (-4) }
      = [(0, -4)] ∧
    Access.read 12 ∈
      (myfreeLog { MEMORY_SIZE := 12, mem := writeInt (writeInt zeroMem 0 (-4)) 8 (-4) } 4).2 := by
  decide!

/-! ### The scan of `myalloc`, instrumented -/

theorem scanRun_locPtr (m : Mem) (M size : Int) (n : Nat) (pos : Int) (loc : Option Int) :
    (scanRun m M size n pos loc).locPtr = scanLoop m M size n pos loc := by
  induction n generalizing pos loc with
  | zero => rfl
  | succ n ih =>
    unfold scanRun scanLoop
    split_ifs with h
    · exact ih _ _
    · rfl

theorem scanRun_freeptr (m : Mem) (M size : Int) (n : Nat) (pos : Int) (loc : Option Int) :
    (scanRun m M size n pos loc).freeptr = walkEnd m M n pos := by
  induction n generalizing pos loc with
  | zero => rfl
  | succ n ih =>
    unfold scanRun walkEnd
    split_ifs with h
    · exact ih _ _
    · rfl

theorem scanRun_iterations (m : Mem) (M size : Int) (n : Nat) (pos : Int)
    (loc : Option Int) :
    (scanRun m M size n pos loc).iterations = (walk m M n pos).length := by
  induction n generalizing pos loc with
  | zero => rfl
  | succ n ih =>
    unfold scanRun walk
    split_ifs with h
    · simp only [List.length_cons]
      rw [ih]
    · rfl

theorem scanStep_cases (m : Mem) (size pos : Int) (loc : Option Int) (l : Int)
    (h : scanStep m size pos loc = some l) : l = pos ∨ loc = some l := by
  unfold scanStep at h
  cases loc with
  | none =>
    simp only at h
    split_ifs at h
    left
    exact (Option.some.inj h).symm
  | some l' =>
    simp only at h
    split_ifs at h
    · left; exact (Option.some.inj h).symm
    · right; exact h
    · right; exact h

theorem scanReads_mem (m : Mem) (size pos : Int) (loc : Option Int) (a : Int)
    (h : a ∈ scanReads m size pos loc) : a = pos ∨ loc = some a := by
  unfold scanReads at h
  cases loc with
  | none =>
    simp only [List.mem_cons, List.mem_singleton, or_self, List.mem_nil_iff, or_false] at h
    left; exact h
  | some l =>
    simp only at h
    split_ifs at h
    · simp only [List.mem_cons, List.mem_singleton, List.mem_nil_iff, or_false] at h
      rcases h with h | h | h | h
      · left; exact h
      · left; exact h
      · right; rw [h]
      · left; exact h
    · simp only [List.mem_cons, List.mem_singleton, or_self, List.mem_nil_iff, or_false] at h
      left; exact h

/-- Every word the scan reads is the header of a block of the walk, or the header at
the candidate `locPtr` it started with. -/
theorem scanRun_reads (m : Mem) (M size : Int) (n : Nat) (pos : Int) (loc : Option Int)
    (S : List Int) (hS : ∀ l, loc = some l → l ∈ S) :
    ∀ a ∈ (scanRun m M size n pos loc).reads,
      a ∈ S ∨ a ∈ (walk m M n pos).map Prod.fst := by
  induction n generalizing pos loc S with
  | zero => intro a ha; simp [scanRun] at ha
  | succ n ih =>
    intro a ha
    unfold scanRun at ha
    unfold walk
    split_ifs at ha ⊢ with hlt
    · simp only [List.mem_append] at ha
      rcases ha with ha | ha
      · rcases scanReads_mem m size pos loc a ha with e | e
        · right; simp [e]
        · left; exact hS a e
      · have := ih (pos + |readInt m pos| + 8) (scanStep m size pos loc) (pos :: S) (by
          intro l hl
          rcases scanStep_cases m size pos loc l hl with e | e
          · simp [e]
          · exact List.mem_cons_of_mem _ (hS l e)) a ha
        rcases this with h | h
        · rcases List.mem_cons.mp h with e | h'
          · right; simp [e]
          · left; exact h'
        · right
          simp only [List.map_cons, List.mem_cons]
          right; exact h
    · simp at ha

theorem scanRun_fuel (m : Mem) (M size : Int) (n k : Nat) (pos : Int) (loc : Option Int)
    (h : M ≤ pos + 8 * n) :
    scanRun m M size (n + k) pos loc = scanRun m M size n pos loc := by
  induction n generalizing pos loc with
  | zero =>
    have hp : ¬ pos < M := by simpa using h
    cases k with
    | zero => rfl
    | succ k => simp [scanRun, hp]
  | succ n ih =>
    rw [Nat.add_right_comm]
    unfold scanRun
    split_ifs with hlt
    · rw [ih]
      have := abs_nonneg (readInt m pos)
      push_cast at h
      omega
    · rfl

/-- C17 (scan termination).  In a tiled pool, for every `size`, the `while` loop of
`myalloc` makes exactly as many iterations as there are blocks, reads only words that
are headers of blocks, each at an offset in `[0, MEMORY_SIZE)`, and exits with
`freeptr - mem` equal to `MEMORY_SIZE` and `locPtr` as `chosen` gives it; iterations
allowed beyond `MEMORY_SIZE` are never used. -/
theorem scan_terminates (s : Alloc) (size : Int) (ht : Tiled s) :
    (scanRun s.mem s.MEMORY_SIZE size s.MEMORY_SIZE.toNat 0 none).iterations
      = (blocks s).length ∧
    (∀ a ∈ (scanRun s.mem s.MEMORY_SIZE size s.MEMORY_SIZE.toNat 0 none).reads,
      a ∈ (blocks s).map Prod.fst ∧ 0 ≤ a ∧ a < s.MEMORY_SIZE) ∧
    (scanRun s.mem s.MEMORY_SIZE size s.MEMORY_SIZE.toNat 0 none).freeptr = s.MEMORY_SIZE ∧
    (scanRun s.mem s.MEMORY_SIZE size s.MEMORY_SIZE.toNat 0 none).locPtr = chosen s size ∧
    ∀ k, scanRun s.mem s.MEMORY_SIZE size (s.MEMORY_SIZE.toNat + k) 0 none
      = scanRun s.mem s.MEMORY_SIZE size s.MEMORY_SIZE.toNat 0 none := by
  refine ⟨scanRun_iterations _ _ _ _ _ _, ?_, ?_, scanRun_locPtr _ _ _ _ _ _, ?_⟩
  · intro a ha
    have h := scanRun_reads s.mem s.MEMORY_SIZE size s.MEMORY_SIZE.toNat 0 none []
      (by simp) a ha
    simp only [List.not_mem_nil, false_or] at h
    refine ⟨h, ?_⟩
    obtain ⟨x, hx, rfl⟩ := List.mem_map.mp h
    exact ⟨(linked_mem _ _ _ (walk_linked s.mem s.MEMORY_SIZE s.MEMORY_SIZE.toNat 0) x hx).1,
      walk_lt _ _ _ _ x hx⟩
  · rw [scanRun_freeptr]
    exact ht
  · intro k
    apply scanRun_fuel
    omega

/-- In `samplePool` (8 blocks, 157 bytes) the scan for 10 bytes makes 8 iterations
and stops at 157 with the block at 104 as candidate. -/
theorem scan_terminates_witness :
    (scanRun samplePool.mem samplePool.MEMORY_SIZE 10 samplePool.MEMORY_SIZE.toNat 0
      none).iterations = (blocks samplePool).length ∧
    (blocks samplePool).length = 8 :=
  ⟨(scan_terminates samplePool 10 (by decide!)).1, by decide!⟩

/-! ### The layout after `myalloc` -/

theorem layout_split (m : Mem) (M o n : Int) (pre post : List (Int × Int))
    (hpre : Linked 0 pre o) (hpost : Linked (o + readInt m o + 8) post M)
    (tpre : Tagged m pre) (tpost : Tagged m post) (h0 : 0 ≤ n) (hn : n + 8 ≤ readInt m o) :
    Layout (splitMem m o n (readInt m o)) M
      (pre ++ ([(o, -n), (o + n + 8, readInt m o - n - 8)] ++ post)) := by
  obtain ⟨r1, r2, r3, r4⟩ := splitMem_reads m o n h0 hn
  have hrem : 0 ≤ readInt m o - n - 8 := by linarith
  apply layout_replace m _ M o (o + readInt m o + 8) pre _ post hpre hpost tpre tpost
  · intro i hi
    apply splitMem_byte
    · rcases hi with hi | hi
      · left; exact hi
      · right; linarith
    · rcases hi with hi | hi
      · left; linarith
      · right; linarith
    · rcases hi with hi | hi
      · left; linarith
      · right; linarith
  · simp only [Linked, abs_neg, abs_of_nonneg h0, abs_of_nonneg hrem, true_and]
    ring
  · intro x hx
    simp only [List.mem_cons, List.mem_singleton, List.mem_nil_iff, or_false] at hx
    rcases hx with e | e
    · subst e
      simp only [abs_neg, abs_of_nonneg h0]
      exact ⟨r1, r2⟩
    · subst e
      simp only [abs_of_nonneg hrem]
      refine ⟨r3, ?_⟩
      have e : o + n + 8 + 4 + (readInt m o - n - 8) = o + readInt m o + 4 := by ring
      rw [e]
      exact r4

theorem alloc_eta (s : Alloc) : s = { MEMORY_SIZE := s.MEMORY_SIZE, mem := s.mem } := rfl

/-- When the pool has layout `pre ++ (o, F) :: post` and `myalloc(n)` chooses the
block at `o`, the pool afterwards has layout
`pre ++ (o, -n) :: (o + n + 8, F - n - 8) :: post`. -/
theorem myalloc_layout (s : Alloc) (n o F : Int) (pre post : List (Int × Int))
    (hl : Layout s.mem s.MEMORY_SIZE (pre ++ (o, F) :: post))
    (h0 : 0 ≤ n) (hmax : n + 8 ≤ INT_MAX) (hc : chosen s n = some o) :
    (myalloc s n).2 = some (o + 4) ∧
    (myalloc s n).1.MEMORY_SIZE = s.MEMORY_SIZE ∧
    n + 8 ≤ F ∧
    Layout (myalloc s n).1.mem s.MEMORY_SIZE
      (pre ++ (o, -n) :: (o + n + 8, F - n - 8) :: post) := by
  have hF := chosen_header_ge s n o h0 hmax hc
  obtain ⟨hlink, htag⟩ := hl
  have hFe : readInt s.mem o = F := (htag (o, F) (by simp)).1
  rw [linked_append] at hlink
  obtain ⟨c, g1, g2⟩ := hlink
  obtain ⟨g3, g4⟩ := g2
  simp only at g3
  subst g3
  rw [tagged_append] at htag
  obtain ⟨t1, t2⟩ := htag
  have t3 : Tagged s.mem post := fun x hx => t2 x (List.mem_cons_of_mem _ hx)
  have hF0 : |F| = F := abs_of_nonneg (by linarith)
  simp only [hF0] at g4
  rw [myalloc_of_chosen s n o h0 hmax hc]
  rw [← hFe] at g4 ⊢
  exact ⟨rfl, rfl, hF, layout_split s.mem s.MEMORY_SIZE o n pre post g1 g4 t1 t3 h0 hF⟩

/-! ### Exhausting a fresh pool -/

theorem usedBlocks_succ (n : Int) (k : Nat) :
    usedBlocks n (k + 1) = usedBlocks n k ++ [((k : Int) * (n + 8), -n)] := by
  unfold usedBlocks
  rw [List.range_succ, List.map_append]
  rfl

theorem usedBlocks_mem (n : Int) (k : Nat) (x : Int × Int) :
    x ∈ usedBlocks n k ↔ ∃ i : Nat, i < k ∧ x = ((i : Int) * (n + 8), -n) := by
  unfold usedBlocks
  simp only [List.mem_map, List.mem_range]
  constructor
  · rintro ⟨i, hi, e⟩; exact ⟨i, hi, e.symm⟩
  · rintro ⟨i, hi, e⟩; exact ⟨i, hi, e.symm⟩

theorem linked_usedBlocks (n : Int) (h0 : 0 ≤ n) (k : Nat) :
    Linked 0 (usedBlocks n k) ((k : Int) * (n + 8)) := by
  induction k with
  | zero => simp [usedBlocks, Linked]
  | succ k ih =>
    rw [usedBlocks_succ, linked_append]
    refine ⟨_, ih, ?_⟩
    simp only [Linked, abs_neg, abs_of_nonneg h0, true_and]
    push_cast
    ring

/-- After `j` calls `myalloc(n)` on a fresh pool, the pool consists of `k` used blocks
of payload `n` followed by one free block, where `k = j` as long as every call
succeeded, and otherwise the free block is too small for another request. -/
theorem allocTimes_layout (M : Int) (buf : Mem) (n : Int) (h8 : 8 ≤ M) (hM : M ≤ INT_MAX)
    (h0 : 0 ≤ n) (hmax : n + 8 ≤ INT_MAX) (j : Nat) :
    ∃ k : Nat, k ≤ j ∧ (k : Int) * (n + 8) ≤ M - 8 ∧
      (k = j ∨ M - 8 - (k : Int) * (n + 8) < n + 8) ∧
      (allocTimes (init_myalloc M buf) n j).MEMORY_SIZE = M ∧
      Layout (allocTimes (init_myalloc M buf) n j).mem M
        (usedBlocks n k ++ [((k : Int) * (n + 8), M - 8 - (k : Int) * (n + 8))]) := by
  induction j with
  | zero =>
    refine ⟨0, le_rfl, by simp; linarith, Or.inl rfl, ?_, ?_⟩
    · simp only [allocTimes]
      rw [init_myalloc_eq]
    · have := init_layout M buf h8 hM
      simpa [allocTimes, usedBlocks] using this
  | succ j ih =>
    obtain ⟨k, hkj, hkC, hcase, hsize, hlay⟩ := ih
    generalize hs : allocTimes (init_myalloc M buf) n j = s at hsize hlay
    have hstep : allocTimes (init_myalloc M buf) n (j + 1) = (myalloc s n).1 := by
      simp only [allocTimes, hs]
    rw [hstep]
    have hw : wrap32 (n + 8) = n + 8 := by
      unfold INT_MAX at hmax
      exact wrap32_of_range _ (by linarith) (by linarith)
    have hse : s = { MEMORY_SIZE := M, mem := s.mem } := by
      rw [← hsize]
    have hblocks : blocks s
        = usedBlocks n k ++ [((k : Int) * (n + 8), M - 8 - (k : Int) * (n + 8))] := by
      rw [hse]
      exact (layout_blocks _ _ _ hlay).1
    by_cases hfit : n + 8 ≤ M - 8 - (k : Int) * (n + 8)
    · have hkj' : k = j := by
        rcases hcase with h | h
        · exact h
        · exfalso; linarith
      have hne : chosen s n ≠ none := by
        intro hnone
        have := (chosen_eq_none_iff s n).mp hnone
          ((k : Int) * (n + 8), M - 8 - (k : Int) * (n + 8)) (by rw [hblocks]; simp)
        rw [hw] at this
        simp only at this
        linarith
      obtain ⟨o, ho⟩ := Option.ne_none_iff_exists'.mp hne
      obtain ⟨g1, g2, _⟩ := chosen_eq_some s n o ho
      rw [hw] at g2
      rw [hblocks] at g1
      have hoe : o = (k : Int) * (n + 8) := by
        rcases List.mem_append.mp g1 with h | h
        · exfalso
          obtain ⟨i, _, e⟩ := (usedBlocks_mem n k _).mp h
          have := congrArg Prod.snd e
          simp only at this
          linarith
        · simp only [List.mem_singleton] at h
          exact congrArg Prod.fst h
      subst hoe
      rw [← hsize] at hlay
      obtain ⟨_, a2, _, a4⟩ := myalloc_layout s n _ _ _ _ hlay h0 hmax ho
      rw [hsize] at a2 a4
      refine ⟨k + 1, by omega, ?_, Or.inl (by omega), a2, ?_⟩
      · push_cast; linarith
      · rw [usedBlocks_succ, List.append_assoc]
        have e1 : ((k + 1 : Nat) : Int) * (n + 8) = (k : Int) * (n + 8) + n + 8 := by
          push_cast; ring
        have e2 : M - 8 - ((k : Int) * (n + 8) + n + 8)
            = M - 8 - (k : Int) * (n + 8) - n - 8 := by
          ring
        rw [e1, e2]
        exact a4
    · have hnone : chosen s n = none := by
        rw [chosen_eq_none_iff, hw, hblocks]
        intro x hx
        rcases List.mem_append.mp hx with h | h
        · obtain ⟨i, _, e⟩ := (usedBlocks_mem n k _).mp h
          rw [e]
          simp only
          linarith
        · simp only [List.mem_singleton] at h
          rw [h]
          simp only
          linarith
      have hsame : (myalloc s n).1 = s := by
        unfold myalloc
        rw [hnone]
      rw [hsame]
      exact ⟨k, by omega, hkC, Or.inr (by linarith), hsize, hlay⟩

theorem alloc_eq_of_size (s : Alloc) (M : Int) (h : s.MEMORY_SIZE = M) :
    s = { MEMORY_SIZE := M, mem := s.mem } := by
  subst h
  rfl

theorem chosen_used_then_free (s : Alloc) (n : Int) (k : Nat) (F : Int) (h0 : 0 ≤ n)
    (hmax : n + 8 ≤ INT_MAX)
    (hb : blocks s = usedBlocks n k ++ [((k : Int) * (n + 8), F)]) :
    (chosen s n = none ↔ F < n + 8) ∧
    (n + 8 ≤ F → chosen s n = some ((k : Int) * (n + 8))) := by
  have hw : wrap32 (n + 8) = n + 8 := by
    unfold INT_MAX at hmax
    exact wrap32_of_range _ (by linarith) (by linarith)
  have hnone : chosen s n = none ↔ F < n + 8 := by
    rw [chosen_eq_none_iff, hw, hb]
    constructor
    · intro h
      exact h ((k : Int) * (n + 8), F) (by simp)
    · intro hF x hx
      rcases List.mem_append.mp hx with h | h
      · obtain ⟨i, _, e⟩ := (usedBlocks_mem n k _).mp h
        rw [e]
        simp only
        linarith
      · simp only [List.mem_singleton] at h
        rw [h]
        exact hF
  refine ⟨hnone, ?_⟩
  intro hF
  cases hc : chosen s n with
  | none => exfalso; have := hnone.mp hc; linarith
  | some o =>
    obtain ⟨g1, g2, _⟩ := chosen_eq_some s n o hc
    rw [hw] at g2
    rw [hb] at g1
    rcases List.mem_append.mp g1 with h | h
    · exfalso
      obtain ⟨i, _, e⟩ := (usedBlocks_mem n k _).mp h
      have := congrArg Prod.snd e
      simp only at this
      linarith
    · simp only [List.mem_singleton] at h
      have := congrArg Prod.fst h
      simp only at this
      rw [this]

/-- C13 (exhaustion).  On a fresh pool of payload capacity `C = MEMORY_SIZE - 8`,
for every `n ≥ 0` (with `n + 8` an `int`), the calls `myalloc(n)` made in a row
succeed exactly `C / (n + 8)` times (integer division): call number `j`, counted from
0, succeeds if and only if `j < C / (n + 8)`, and it then returns `j * (n + 8) + 4`.
After any number `j` of calls, successful or failed, every block allocated so far
still has header and footer `-n` where they were written. -/
theorem myalloc_exhaustion (M : Int) (buf : Mem) (n : Int) (h8 : 8 ≤ M) (hM : M ≤ INT_MAX)
    (h0 : 0 ≤ n) (hmax : n + 8 ≤ INT_MAX) :
    (∀ j : Nat, (myalloc (allocTimes (init_myalloc M buf) n j) n).2 ≠ none
      ↔ (j : Int) < (M - 8) / (n + 8)) ∧
    (∀ j : Nat, (j : Int) < (M - 8) / (n + 8) →
      (myalloc (allocTimes (init_myalloc M buf) n j) n).2 = some ((j : Int) * (n + 8) + 4)) ∧
    (∀ j i : Nat, i < j → (i : Int) < (M - 8) / (n + 8) →
      readInt (allocTimes (init_myalloc M buf) n j).mem ((i : Int) * (n + 8)) = -n ∧
      readInt (allocTimes (init_myalloc M buf) n j).mem ((i : Int) * (n + 8) + 4 + n) = -n) := by
  have hQ : 0 < n + 8 := by linarith
  have key : ∀ j : Nat, ∃ k : Nat, k ≤ j ∧
      (k = j ∨ M - 8 - (k : Int) * (n + 8) < n + 8) ∧
      (chosen (allocTimes (init_myalloc M buf) n j) n = none
        ↔ M - 8 - (k : Int) * (n + 8) < n + 8) ∧
      (n + 8 ≤ M - 8 - (k : Int) * (n + 8) →
        chosen (allocTimes (init_myalloc M buf) n j) n = some ((k : Int) * (n + 8))) ∧
      Tagged (allocTimes (init_myalloc M buf) n j).mem (usedBlocks n k) := by
    intro j
    obtain ⟨k, hkj, _, hcase, hsize, hlay⟩ := allocTimes_layout M buf n h8 hM h0 hmax j
    have hb : blocks (allocTimes (init_myalloc M buf) n j)
        = usedBlocks n k ++ [((k : Int) * (n + 8), M - 8 - (k : Int) * (n + 8))] := by
      have h1 := (layout_blocks _ _ _ hlay).1
      have h2 := alloc_eq_of_size _ M hsize
      rw [← h2] at h1
      exact h1
    obtain ⟨c1, c2⟩ := chosen_used_then_free _ n k _ h0 hmax hb
    exact ⟨k, hkj, hcase, c1, c2, ((tagged_append _ _ _).mp hlay.2).1⟩
  have div1 : ∀ j : Nat, ((j : Int) < (M - 8) / (n + 8) ↔ n + 8 ≤ M - 8 - (j : Int) * (n + 8)) := by
    intro j
    rw [Int.lt_iff_add_one_le, Int.le_ediv_iff_mul_le hQ]
    constructor
    · intro h; linarith
    · intro h; linarith
  have div2 : ∀ j k : Nat, k ≤ j → M - 8 - (k : Int) * (n + 8) < n + 8 →
      ¬ (j : Int) < (M - 8) / (n + 8) := by
    intro j k hkj hlt hj
    have hk : (k : Int) < (M - 8) / (n + 8) := by
      have : (k : Int) ≤ (j : Int) := by exact_mod_cast hkj
      linarith
    have := (div1 k).mp hk
    linarith
  refine ⟨?_, ?_, ?_⟩
  · intro j
    obtain ⟨k, hkj, hcase, c1, _, _⟩ := key j
    rw [Ne, myalloc_eq_none_iff, c1]
    rcases hcase with h | h
    · subst h
      rw [div1 k]
      exact not_lt
    · constructor
      · intro h'; exact absurd h h'
      · intro h'; exact absurd h' (div2 j k hkj h)
  · intro j hj
    obtain ⟨k, hkj, hcase, _, c2, _⟩ := key j
    rcases hcase with h | h
    · subst h
      have hc := c2 ((div1 k).mp hj)
      rw [myalloc_of_chosen _ n _ h0 hmax hc]
    · exact absurd hj (div2 j k hkj h)
  · intro j i hij hi
    obtain ⟨k, hkj, hcase, _, _, ht⟩ := key j
    have hik : i < k := by
      rcases hcase with h | h
      · omega
      · by_contra hcon
        have hki : k ≤ i := by omega
        exact div2 i k hki h hi
    have := ht ((i : Int) * (n + 8), -n) ((usedBlocks_mem n k _).mpr ⟨i, hik, rfl⟩)
    simp only [abs_neg, abs_of_nonneg h0] at this
    exact this

/-- A pool of payload capacity 100 (108 bytes) and `n = 50`: the first `myalloc(50)`
succeeds, the second fails. -/
theorem myalloc_exhaustion_witness :
    (myalloc (allocTimes (init_myalloc 108 zeroMem) 50 0) 50).2 ≠ none ∧
    ¬ (myalloc (allocTimes (init_myalloc 108 zeroMem) 50 1) 50).2 ≠ none :=
  ⟨((myalloc_exhaustion 108 zeroMem 50 (by decide) (by decide) (by decide)
      (by decide)).1 0).mpr (by decide),
    fun h => absurd (((myalloc_exhaustion 108 zeroMem 50 (by decide) (by decide) (by decide)
      (by decide)).1 1).mp h) (by decide)⟩

/-! ### The two coalescing phases of `myfree` on a layout -/

theorem linked_concat (pre : List (Int × Int)) (z : Int × Int) (a b : Int)
    (h : Linked a (pre ++ [z]) b) : Linked a pre z.1 ∧ z.1 + |z.2| + 8 = b := by
  rw [linked_append] at h
  obtain ⟨c, h1, h2⟩ := h
  obtain ⟨h3, h4⟩ := h2
  simp only [Linked] at h4
  subst h3
  exact ⟨h1, h4⟩

/-- The right phase: after the block at `p - 4` (payload `sz`) is marked free and
merged with its right neighbour if that one is free, it has some payload `t`, the
blocks `post'` that follow it are blocks that followed it before, the first of them
is used, and no used block was lost. -/
theorem right_phase (m : Mem) (M p sz : Int) (post : List (Int × Int))
    (h : readInt m (p - 4) = -sz) (h0 : 0 ≤ sz) (hp : 0 ≤ p - 4) (hM : M ≤ 2147483647)
    (hl : Linked (p + sz + 4) post M) (ht : Tagged m post)
    (hc : List.Chain' NotBothFree post) :
    ∃ t post', sz ≤ t ∧
      readInt (rightStep (markStep m p) M p) (p - 4) = t ∧
      readInt (rightStep (markStep m p) M p) (p + t) = t ∧
      (∀ i, i < p - 4 ∨ p + t + 4 ≤ i → rightStep (markStep m p) M p i = m i) ∧
      Linked (p + t + 4) post' M ∧ Tagged m post' ∧ List.Chain' NotBothFree post' ∧
      (∀ y ∈ post'.head?, y.2 < 0) ∧
      (∀ y ∈ post, y.2 < 0 → y ∈ post') := by
  have hle := linked_le post _ _ hl
  obtain ⟨a1, a2, a3⟩ := markStep_reads m p sz h h0 (by linarith)
  have b1 : readInt (markStep m p) (p + sz + 4) = readInt m (p + sz + 4) :=
    readInt_frame _ _ _ _ _ a3 (Or.inr le_rfl)
  cases post with
  | nil =>
    simp only [Linked] at hl
    refine ⟨sz, [], le_rfl, ?_⟩
    rw [rightStep_skip _ M p sz a1 h0 (Or.inr hl)]
    refine ⟨a1, a2, a3, ?_, ht, hc, by simp, by simp⟩
    simp only [Linked]
    exact hl
  | cons y rest =>
    obtain ⟨hy1, hy2⟩ := hl
    have hty := ht y (List.mem_cons_self _ _)
    rw [hy1] at hty
    by_cases hfree : 0 ≤ y.2
    · have hend := linked_le rest _ _ hy2
      rw [abs_of_nonneg hfree] at hy2 hend
      have b1' : readInt (markStep m p) (p + sz + 4) = y.2 := by rw [b1, hty.1]
      have hne : p + sz + 4 ≠ M := by
        intro e; linarith
      obtain ⟨c1, c2, c3⟩ := rightStep_merge_reads _ M p sz y.2 a1 h0 b1' hfree hne
        (by linarith)
      refine ⟨sz + y.2 + 8, rest, by linarith, c1, c2, ?_, ?_, ?_, hc.tail, ?_, ?_⟩
      · intro i hi
        rw [c3, a3]
        · rcases hi with hi | hi
          · left; exact hi
          · right; linarith
        · rcases hi with hi | hi
          · left; exact hi
          · right; linarith
      · have e : p + (sz + y.2 + 8) + 4 = p + sz + 4 + y.2 + 8 := by ring
        rw [e]
        exact hy2
      · exact fun x hx => ht x (List.mem_cons_of_mem _ hx)
      · intro x hx
        have := (List.chain'_cons'.mp hc).1 x hx
        unfold NotBothFree at this
        by_contra hcon
        exact this ⟨hfree, not_lt.mp hcon⟩
      · intro x hx hneg
        rcases List.mem_cons.mp hx with e | hx'
        · exfalso; rw [e] at hneg; linarith
        · exact hx'
    · have hneg : y.2 < 0 := not_le.mp hfree
      refine ⟨sz, y :: rest, le_rfl, ?_⟩
      rw [rightStep_skip _ M p sz a1 h0 (Or.inl (by rw [b1, hty.1]; exact hneg))]
      refine ⟨a1, a2, a3, ⟨hy1, hy2⟩, ht, hc, ?_, fun x hx _ => hx⟩
      intro x hx
      simp only [List.head?_cons, Option.mem_def, Option.some.injEq] at hx
      rw [← hx]
      exact hneg

/-- The left phase: the free block at `p - 4` (payload `t`) is merged with its left
neighbour if that one is free; the result is a free block at `A` of payload `T` that
ends where the block ended, the blocks `pre'` before it are blocks that were before
it, the last of them is used, and no used block was lost. -/
theorem left_phase (m m3 : Mem) (M p t : Int) (pre : List (Int × Int))
    (h : readInt m3 (p - 4) = t) (h0 : 0 ≤ t) (hf : readInt m3 (p + t) = t)
    (hfr : ∀ i, i < p - 4 → m3 i = m i)
    (hend : p + t + 4 ≤ M) (hM : M ≤ 2147483647)
    (hl : Linked 0 pre (p - 4)) (ht : Tagged m pre)
    (hc : List.Chain' NotBothFree pre) :
    ∃ A T pre', 0 ≤ T ∧ A ≤ p - 4 ∧
      readInt (leftStep m3 p) A = T ∧
      readInt (leftStep m3 p) (A + 4 + T) = T ∧
      A + T + 8 = p + t + 4 ∧
      (∀ i, i < A ∨ p + t + 4 ≤ i → leftStep m3 p i = m3 i) ∧
      Linked 0 pre' A ∧ Tagged m pre' ∧ List.Chain' NotBothFree pre' ∧
      (∀ z ∈ pre'.getLast?, z.2 < 0) ∧
      (∀ z ∈ pre, z.2 < 0 → z ∈ pre') := by
  have skip : ∀ (hs : readInt m3 (p - 8) < 0 ∨ p - 8 ≤ 0)
      (hlast : ∀ z ∈ pre.getLast?, z.2 < 0),
      ∃ A T pre', 0 ≤ T ∧ A ≤ p - 4 ∧
      readInt (leftStep m3 p) A = T ∧
      readInt (leftStep m3 p) (A + 4 + T) = T ∧
      A + T + 8 = p + t + 4 ∧
      (∀ i, i < A ∨ p + t + 4 ≤ i → leftStep m3 p i = m3 i) ∧
      Linked 0 pre' A ∧ Tagged m pre' ∧ List.Chain' NotBothFree pre' ∧
      (∀ z ∈ pre'.getLast?, z.2 < 0) ∧
      (∀ z ∈ pre, z.2 < 0 → z ∈ pre') := by
    intro hs hlast
    refine ⟨p - 4, t, pre, h0, le_rfl, ?_⟩
    rw [leftStep_skip m3 p hs]
    have e : p - 4 + 4 + t = p + t := by ring
    rw [e]
    exact ⟨h, hf, by ring, fun _ _ => rfl, hl, ht, hc, hlast, fun z hz _ => hz⟩
  rcases List.eq_nil_or_concat pre with e | ⟨pre0, z, e⟩
  · subst e
    simp only [Linked] at hl
    exact skip (Or.inr (by linarith)) (by simp)
  · rw [List.concat_eq_append] at e
    subst e
    obtain ⟨g1, g2⟩ := linked_concat pre0 z 0 (p - 4) hl
    have hz0 := linked_le pre0 0 z.1 g1
    have htz := ht z (List.mem_append_right _ (List.mem_singleton.mpr rfl))
    by_cases hfree : 0 ≤ z.2
    · rw [abs_of_nonneg hfree] at g2 htz
      have d1 : readInt m3 (p - 8) = z.2 := by
        have e : p - 8 = z.1 + 4 + z.2 := by linarith
        rw [readInt_congr m m3 (p - 8) (fun i _ hi => hfr i (by linarith)), e]
        exact htz.2
      have d2 : readInt m3 (p - z.2 - 12) = z.2 := by
        have e : p - z.2 - 12 = z.1 := by linarith
        rw [readInt_congr m m3 (p - z.2 - 12) (fun i _ hi => hfr i (by linarith)), e]
        exact htz.1
      obtain ⟨c1, c2, c3⟩ := leftStep_merge_reads m3 p t z.2 h h0 d1 hfree (by linarith) d2
        (by linarith)
      refine ⟨z.1, z.2 + t + 8, pre0, by linarith, by linarith, ?_, ?_, by linarith, ?_, g1,
        ?_, hc.left_of_append, ?_, ?_⟩
      · have e : z.1 = p - z.2 - 12 := by linarith
        rw [e]
        exact c1
      · have e : z.1 + 4 + (z.2 + t + 8) = p + t := by linarith
        rw [e]
        exact c2
      · intro i hi
        apply c3
        · rcases hi with hi | hi
          · left; linarith
          · right; linarith
        · rcases hi with hi | hi
          · left; linarith
          · right; exact hi
      · exact fun x hx => ht x (List.mem_append_left _ hx)
      · intro x hx
        have := (List.chain'_append.mp hc).2.2 x hx z (by simp)
        unfold NotBothFree at this
        by_contra hcon
        exact this ⟨not_lt.mp hcon, hfree⟩
      · intro x hx hneg
        rcases List.mem_append.mp hx with hx' | hx'
        · exact hx'
        · exfalso
          simp only [List.mem_singleton] at hx'
          rw [hx'] at hneg
          linarith
    · have hneg : z.2 < 0 := not_le.mp hfree
      apply skip
      · left
        have hz : |z.2| = -z.2 := abs_of_neg hneg
        have e : p - 8 = z.1 + 4 + |z.2| := by linarith
        rw [readInt_congr m m3 (p - 8) (fun i _ hi => hfr i (by linarith)), e, htz.2]
        exact hneg
      · intro x hx
        simp only [List.getLast?_append, List.getLast?_singleton, Option.mem_def] at hx
        have hx2 : some z = some x := hx
        rw [← Option.some.inj hx2]
        exact hneg

theorem chain_free_mid (pre post : List (Int × Int)) (x : Int × Int)
    (hpre : List.Chain' NotBothFree pre) (hpost : List.Chain' NotBothFree post)
    (hl : ∀ z ∈ pre.getLast?, z.2 < 0) (hr : ∀ y ∈ post.head?, y.2 < 0) :
    List.Chain' NotBothFree (pre ++ x :: post) := by
  rw [List.chain'_append]
  refine ⟨hpre, ?_, ?_⟩
  · rw [List.chain'_cons']
    refine ⟨?_, hpost⟩
    intro y hy
    have := hr y hy
    unfold NotBothFree
    intro h
    linarith [h.2]
  · intro z hz y _
    have := hl z hz
    unfold NotBothFree
    intro h
    linarith [h.1]

theorem chain_around (pre post : List (Int × Int)) (x : Int × Int)
    (h : List.Chain' NotBothFree (pre ++ x :: post)) :
    List.Chain' NotBothFree pre ∧ List.Chain' NotBothFree post ∧
    (0 ≤ x.2 → (∀ z ∈ pre.getLast?, z.2 < 0) ∧ (∀ y ∈ post.head?, y.2 < 0)) := by
  rw [List.chain'_append] at h
  obtain ⟨h1, h2, h3⟩ := h
  rw [List.chain'_cons'] at h2
  refine ⟨h1, h2.2, fun hx => ⟨?_, ?_⟩⟩
  · intro z hz
    have := h3 z hz x (by simp)
    unfold NotBothFree at this
    by_contra hcon
    exact this ⟨not_lt.mp hcon, hx⟩
  · intro y hy
    have := h2.1 y hy
    unfold NotBothFree at this
    by_contra hcon
    exact this ⟨hx, not_lt.mp hcon⟩

/-- When the pool has layout `pre ++ (p - 4, -sz) :: post` with no two adjacent free
blocks, `myfree(p)` leaves a layout `pre' ++ (A, T) :: post'` with no two adjacent
free blocks, in which `(A, T)` is free and every used block of `pre` and of `post`
is still a block. -/
theorem myfree_layout (s : Alloc) (p sz : Int) (pre post : List (Int × Int))
    (hM : s.MEMORY_SIZE ≤ INT_MAX)
    (hl : Layout s.mem s.MEMORY_SIZE (pre ++ (p - 4, -sz) :: post))
    (hc : List.Chain' NotBothFree (pre ++ (p - 4, -sz) :: post)) (h0 : 0 ≤ sz) :
    ∃ pre' A T post', 0 ≤ T ∧
      Layout (leftStep (rightStep (markStep s.mem p) s.MEMORY_SIZE p) p) s.MEMORY_SIZE
        (pre' ++ (A, T) :: post') ∧
      List.Chain' NotBothFree (pre' ++ (A, T) :: post') ∧
      (∀ y ∈ pre, y.2 < 0 → y ∈ pre') ∧ (∀ y ∈ post, y.2 < 0 → y ∈ post') := by
  unfold INT_MAX at hM
  obtain ⟨hlink, htag⟩ := hl
  rw [linked_append] at hlink
  obtain ⟨c, l1, l2⟩ := hlink
  obtain ⟨l2a, l2b⟩ := l2
  simp only at l2a l2b
  subst l2a
  rw [abs_neg, abs_of_nonneg h0] at l2b
  have e1 : p - 4 + sz + 8 = p + sz + 4 := by ring
  rw [e1] at l2b
  rw [tagged_append] at htag
  obtain ⟨t1, t2⟩ := htag
  have hx := (t2 (p - 4, -sz) (List.mem_cons_self _ _)).1
  simp only at hx
  have t3 : Tagged s.mem post := fun y hy => t2 y (List.mem_cons_of_mem _ hy)
  have hp := linked_le pre 0 (p - 4) l1
  obtain ⟨c1, c2, _⟩ := chain_around pre post (p - 4, -sz) hc
  obtain ⟨t, post', ht, r1, r2, r3, r4, r5, r6, r7, r8⟩ :=
    right_phase s.mem s.MEMORY_SIZE p sz post hx h0 hp hM l2b t3 c2
  have hend := linked_le post' _ _ r4
  obtain ⟨A, T, pre', hT, hA, q1, q2, q3, q4, q5, q6, q7, q8, q9⟩ :=
    left_phase s.mem (rightStep (markStep s.mem p) s.MEMORY_SIZE p) s.MEMORY_SIZE p t pre
      r1 (by linarith) r2 (fun i hi => r3 i (Or.inl hi)) hend hM l1 t1 c1
  refine ⟨pre', A, T, post', hT, ?_, chain_free_mid pre' post' (A, T) q7 r6 q8 r7, q9, r8⟩
  refine layout_replace s.mem _ s.MEMORY_SIZE A (p + t + 4) pre' [(A, T)] post' q5 r4 q6 r5
    ?_ ?_ ?_
  · intro i hi
    rw [q4 i hi]
    apply r3
    rcases hi with hi | hi
    · left; linarith
    · right; exact hi
  · simp only [Linked, abs_of_nonneg hT, true_and]
    exact q3
  · intro y hy
    simp only [List.mem_singleton] at hy
    subst hy
    simp only [abs_of_nonneg hT]
    exact ⟨q1, q2⟩

/-- On a well-formed pool whose blocks are `pre ++ (p - 4, -sz) :: post`,
`myfree(p)` leaves a well-formed pool whose blocks are `pre' ++ (A, T) :: post'`
with `(A, T)` free, and every used block of `pre` and of `post` is still a block. -/
theorem myfree_blocks (s : Alloc) (p sz : Int) (pre post : List (Int × Int))
    (hw : WellFormed s) (hsplit : blocks s = pre ++ (p - 4, -sz) :: post) (h0 : 0 ≤ sz) :
    ∃ pre' A T post', 0 ≤ T ∧ WellFormed (myfree s p) ∧
      blocks (myfree s p) = pre' ++ (A, T) :: post' ∧
      (∀ y ∈ pre, y.2 < 0 → y ∈ pre') ∧ (∀ y ∈ post, y.2 < 0 → y ∈ post') := by
  have hlay := layout_of_wellFormed s hw
  have hchain : List.Chain' NotBothFree (blocks s) := (adjacentFree_iff _).mp hw.2.2.2
  rw [hsplit] at hlay hchain
  obtain ⟨pre', A, T, post', hT, g1, g2, g3, g4⟩ :=
    myfree_layout s p sz pre post hw.1 hlay hchain h0
  rw [myfree_steps]
  exact ⟨pre', A, T, post', hT, wellFormed_of_layout _ _ _ hw.1 g1 g2,
    (layout_blocks _ _ _ g1).1, g3, g4⟩

theorem inv_init (M : Int) (buf : Mem) (h8 : 8 ≤ M) (hM : M ≤ INT_MAX) :
    Sys.Inv { st := init_myalloc M buf, live := [] } := by
  have hl := init_layout M buf h8 hM
  have hw := wellFormed_of_layout (init_myalloc M buf).mem M [(0, M - 8)] hM hl
    (List.chain'_singleton _)
  have e : init_myalloc M buf = { MEMORY_SIZE := M, mem := (init_myalloc M buf).mem } := by
    rw [init_myalloc_eq]
  rw [← e] at hw
  exact ⟨hw, by simp, by simp⟩

theorem inv_good (σ : Sys) (h : σ.Inv) : σ.Good := by
  obtain ⟨hw, hlive, _⟩ := h
  refine ⟨hw, ?_⟩
  intro e he
  obtain ⟨h1, hb⟩ := hlive e he
  have ht := (layout_of_wellFormed σ.st hw).2 _ hb
  simp only at ht
  rw [abs_neg, abs_of_nonneg (by linarith : (0 : Int) ≤ e.2)] at ht
  have e1 : e.1 - 4 + 4 + e.2 = e.1 + e.2 := by ring
  rw [e1] at ht
  exact ht

theorem inv_alloc (σ σ' : Sys) (n : Int) (h1 : 1 ≤ n) (hmax : n + 8 ≤ INT_MAX)
    (hinv : σ.Inv) (hs : σ.step (.alloc n) = some σ') : σ'.Inv := by
  obtain ⟨hw, hlive, hnd⟩ := hinv
  have h0 : 0 ≤ n := by linarith
  have hn : n ≤ INT_MAX := by linarith
  simp only [Sys.step] at hs
  rw [if_pos ⟨h0, hn⟩] at hs
  cases hr : (myalloc σ.st n).2 with
  | none =>
    have hc := (myalloc_eq_none_iff σ.st n).mp hr
    have e : myalloc σ.st n = (σ.st, none) := by
      unfold myalloc
      rw [hc]
    rw [e] at hs
    simp only [Option.some.injEq] at hs
    subst hs
    exact ⟨hw, hlive, hnd⟩
  | some q =>
    have hc := chosen_of_myalloc σ.st n q h0 hmax hr
    obtain ⟨hmem, hge, _⟩ := chosen_eq_some σ.st n (q - 4) hc
    have hF := chosen_header_ge σ.st n (q - 4) h0 hmax hc
    have hlay := layout_of_wellFormed σ.st hw
    obtain ⟨pre, post, hsplit, lpre, lpost⟩ :=
      linked_split (blocks σ.st) 0 σ.st.MEMORY_SIZE hlay.1 _ hmem
    simp only at lpre lpost
    rw [hsplit] at hlay
    obtain ⟨g1, g2, _, g4⟩ :=
      myalloc_layout σ.st n (q - 4) (readInt σ.st.mem (q - 4)) pre post hlay h0 hmax hc
    have e : myalloc σ.st n = ((myalloc σ.st n).1, some q) := by
      rw [← hr]
    rw [e] at hs
    simp only [Option.some.injEq] at hs
    subst hs
    have hchain : List.Chain' NotBothFree (blocks σ.st) :=
      (adjacentFree_iff _).mp hw.2.2.2
    rw [hsplit] at hchain
    obtain ⟨c1, c2, c3⟩ := chain_around pre post _ hchain
    obtain ⟨c4, c5⟩ := c3 (by simp only; linarith)
    have hchain' : List.Chain' NotBothFree
        (pre ++ (q - 4, -n) :: (q - 4 + n + 8, readInt σ.st.mem (q - 4) - n - 8) :: post) := by
      rw [List.chain'_append]
      refine ⟨c1, ?_, ?_⟩
      · rw [List.chain'_cons']
        refine ⟨?_, ?_⟩
        · intro y _
          unfold NotBothFree
          intro h
          have := h.1
          simp only at this
          linarith
        · rw [List.chain'_cons']
          refine ⟨?_, c2⟩
          intro y hy
          have := c5 y hy
          unfold NotBothFree
          intro h
          linarith [h.2]
      · intro z hz y _
        have := c4 z hz
        unfold NotBothFree
        intro h
        linarith [h.1]
    have hw' := wellFormed_of_layout _ _ _ hw.1 g4 hchain'
    have hb := (layout_blocks _ _ _ g4).1
    have est : (myalloc σ.st n).1
        = { MEMORY_SIZE := σ.st.MEMORY_SIZE, mem := (myalloc σ.st n).1.mem } := by
      rw [← g2]
    rw [← est] at hw' hb
    refine ⟨hw', ?_, ?_⟩
    · intro e he
      simp only at he ⊢
      rw [hb]
      rcases List.mem_cons.mp he with he | he
      · subst he
        exact ⟨h1, by simp⟩
      · obtain ⟨k1, k2⟩ := hlive e he
        refine ⟨k1, ?_⟩
        rw [hsplit] at k2
        rcases List.mem_append.mp k2 with k | k
        · exact List.mem_append_left _ k
        · rcases List.mem_cons.mp k with k | k
          · exfalso
            have := congrArg Prod.snd k
            simp only at this
            linarith
          · exact List.mem_append_right _
              (List.mem_cons_of_mem _ (List.mem_cons_of_mem _ k))
    · simp only [List.map_cons, List.nodup_cons]
      refine ⟨?_, hnd⟩
      intro hq
      obtain ⟨e, he, heq⟩ := List.mem_map.mp hq
      obtain ⟨k1, k2⟩ := hlive e he
      rw [heq, hsplit] at k2
      rcases List.mem_append.mp k2 with k | k
      · have := (linked_mem pre 0 (q - 4) lpre _ k).2
        simp only at this
        have ha := abs_nonneg (-e.2)
        linarith
      · rcases List.mem_cons.mp k with k | k
        · have := congrArg Prod.snd k
          simp only at this
          linarith
        · have := (linked_mem post _ _ lpost _ k).1
          simp only at this
          have ha := abs_nonneg (readInt σ.st.mem (q - 4))
          linarith

theorem inv_free (σ σ' : Sys) (p : Int) (hinv : σ.Inv)
    (hs : σ.step (.free p) = some σ') : σ'.Inv := by
  obtain ⟨hw, hlive, hnd⟩ := hinv
  simp only [Sys.step] at hs
  cases hf : σ.live.find? (fun e => decide (e.1 = p)) with
  | none =>
    rw [hf] at hs
    simp at hs
  | some e =>
    rw [hf] at hs
    simp only [Option.some.injEq] at hs
    subst hs
    have he := List.mem_of_find?_eq_some hf
    have hep : e.1 = p := by
      have := List.find?_some hf
      exact of_decide_eq_true this
    obtain ⟨k1, k2⟩ := hlive e he
    rw [hep] at k2
    have hlay := layout_of_wellFormed σ.st hw
    obtain ⟨pre, post, hsplit, _, _⟩ :=
      linked_split (blocks σ.st) 0 σ.st.MEMORY_SIZE hlay.1 _ k2
    obtain ⟨pre', A, T, post', _, hw', hb, g3, g4⟩ :=
      myfree_blocks σ.st p e.2 pre post hw hsplit (by linarith)
    have hnd2 : σ.live.Nodup := List.Nodup.of_map _ hnd
    refine ⟨hw', ?_, ?_⟩
    · intro e' he'
      simp only at he' ⊢
      rw [hb]
      obtain ⟨hne, hmem⟩ := (List.Nodup.mem_erase_iff hnd2).mp he'
      obtain ⟨j1, j2⟩ := hlive e' hmem
      refine ⟨j1, ?_⟩
      have hne1 : e'.1 ≠ p := by
        intro h
        apply hne
        exact List.inj_on_of_nodup_map hnd hmem he (by rw [h, hep])
      rw [hsplit] at j2
      rcases List.mem_append.mp j2 with k | k
      · exact List.mem_append_left _ (g3 _ k (by simp only; linarith))
      · rcases List.mem_cons.mp k with k | k
        · exfalso
          have := congrArg Prod.fst k
          simp only at this
          apply hne1
          linarith
        · exact List.mem_append_right _
            (List.mem_cons_of_mem _ (g4 _ k (by simp only; linarith)))
    · exact List.Nodup.sublist (List.Sublist.map _ (List.erase_sublist _ _)) hnd

theorem inv_step (σ σ' : Sys) (op : Op) (hpos : op.Positive) (hinv : σ.Inv)
    (hs : σ.step op = some σ') : σ'.Inv := by
  cases op with
  | alloc n => exact inv_alloc σ σ' n hpos.1 hpos.2 hinv hs
  | free p => exact inv_free σ σ' p hinv hs

theorem inv_foldl : ∀ (ops : List Op) (σ σ' : Sys), σ.Inv → (∀ op ∈ ops, op.Positive) →
    ops.foldlM Sys.step σ = some σ' → σ'.Inv
  | [], σ, σ', h, _, hr => by
    simp only [List.foldlM_nil] at hr
    have e : σ = σ' := Option.some.inj hr
    rw [← e]
    exact h
  | op :: rest, σ, σ', h, hpos, hr => by
    rw [List.foldlM_cons] at hr
    cases hstep : Sys.step σ op with
    | none =>
      rw [hstep] at hr
      simp at hr
    | some σ1 =>
      rw [hstep] at hr
      have h1 := inv_step σ σ1 op (hpos op (List.mem_cons_self _ _)) h hstep
      exact inv_foldl rest σ1 σ' h1 (fun o ho => hpos o (List.mem_cons_of_mem _ ho)) hr

theorem step_alloc_some (σ : Sys) (n : Int) (h0 : 0 ≤ n) (hn : n ≤ INT_MAX) :
    ∃ σ', σ.step (.alloc n) = some σ' := by
  simp only [Sys.step]
  rw [if_pos ⟨h0, hn⟩]
  cases hr : (myalloc σ.st n).2 with
  | none =>
    have e : myalloc σ.st n = ((myalloc σ.st n).1, none) := by rw [← hr]
    rw [e]
    exact ⟨_, rfl⟩
  | some q =>
    have e : myalloc σ.st n = ((myalloc σ.st n).1, some q) := by rw [← hr]
    rw [e]
    exact ⟨_, rfl⟩

theorem step_free_some (σ : Sys) (e : Int × Int) (he : e ∈ σ.live) :
    ∃ σ', σ.step (.free e.1) = some σ' := by
  simp only [Sys.step]
  cases hf : σ.live.find? (fun x => decide (x.1 = e.1)) with
  | none =>
    exfalso
    have := List.find?_eq_none.mp hf e he
    simp at this
  | some x => exact ⟨_, rfl⟩

/-- C18 (well-formedness is an invariant for strictly positive requests).  Take any
sequence of calls on a pool of `8 ≤ MEMORY_SIZE` bytes in which every `myalloc`
has `size ≥ 1` (and `size + 8` an `int`) and every `myfree` is of a live address,
and let `σ` be the state it ends in.  Then the predicate "the blocks tile the pool,
every footer equals its header, no two adjacent blocks are free, and every live
allocation `p` of requested size `n` has the words at `p - 4` and `p + n` equal to
`-n`" holds right after `init_myalloc`, holds in `σ`, and holds again after any
further `myalloc(n)` with `n ≥ 1` and after `myfree` of any live address. -/
theorem wellFormed_invariant (M : Int) (buf : Mem) (ops : List Op) (σ : Sys)
    (h8 : 8 ≤ M) (hM : M ≤ INT_MAX) (hpos : ∀ op ∈ ops, op.Positive)
    (hrun : run M buf ops = some σ) :
    Sys.Good { st := init_myalloc M buf, live := [] } ∧
    σ.Good ∧
    (∀ n, 1 ≤ n → n + 8 ≤ INT_MAX → ∃ σ', σ.step (.alloc n) = some σ' ∧ σ'.Good) ∧
    (∀ e ∈ σ.live, ∃ σ', σ.step (.free e.1) = some σ' ∧ σ'.Good) := by
  have hi := inv_init M buf h8 hM
  have hσ : σ.Inv := inv_foldl ops _ σ hi hpos hrun
  refine ⟨inv_good _ hi, inv_good _ hσ, ?_, ?_⟩
  · intro n h1 hmax
    obtain ⟨σ', hs⟩ := step_alloc_some σ n (by linarith) (by linarith)
    exact ⟨σ', hs, inv_good _ (inv_alloc σ σ' n h1 hmax hσ hs)⟩
  · intro e he
    obtain ⟨σ', hs⟩ := step_free_some σ e he
    exact ⟨σ', hs, inv_good _ (inv_free σ σ' e.1 hσ hs)⟩

/-- On a pool of 64 bytes the calls `myalloc(4)`, `myalloc(12)`, `myalloc(4)`,
`myfree(16)`, `myfree(4)` all go through, and the state they end in is well formed. -/
theorem wellFormed_invariant_witness :
    ∃ σ, run 64 zeroMem [.alloc 4, .alloc 12, .alloc 4, .free 16, .free 4] = some σ ∧
      σ.Good :=
  ⟨(run 64 zeroMem [.alloc 4, .alloc 12, .alloc 4, .free 16, .free 4]).get (by decide!),
    (Option.some_get _).symm,
    (wellFormed_invariant 64 zeroMem [.alloc 4, .alloc 12, .alloc 4, .free 16, .free 4] _
      (by decide) (by decide) (by simp [Op.Positive, INT_MAX]) (Option.some_get _).symm).2.1⟩

end MyAlloc
